import Mathlib

/-!
Verification of the Query & Transformation Engine of the json-forge
repository (src/workers/json.worker.ts): the jq-subset, JSONata-subset and
Mongo-subset interpreters, the shared nested-path resolver and the workflow
pipeline engine.

The JavaScript value universe reachable by this engine is modelled by `Jv`:
the six JSON shapes plus the two extra runtime values the engine actually
produces, `undefined` (from failed property lookups) and `NaN` (from the
JSONata `$sum` aggregate).  JavaScript numbers are modelled as integers:
every numeric literal appearing in the engine's own tests and in the claims
below is integral, and none of the verified properties depend on fractional
or overflow behaviour.  Strings are Lean strings, processed as `List Char`
(JavaScript string indexing is by UTF-16 code unit; Lean chars are code
points — the difference is invisible for the material below, which never
relies on surrogate pairs).

Host built-ins used by the worker (`String(..)`, `Number(..)`,
`JSON.stringify`, `Object.entries`, property access) are modelled explicitly
next to the translated functions; each model notes the corner it covers.
Property access is modelled on the JSON data model (own enumerable
properties of objects, canonical indices of arrays): prototype-chain
properties such as `toString` or `length` of strings/arrays are outside the
value model, matching the specification's closed Value union.
-/

/-- JavaScript values reachable inside the engine: the six JSON shapes plus
`undefined` and `NaN`. Object fields are in insertion order; JSON objects
produced by `JSON.parse` have unique keys. -/
inductive Jv where
  | null : Jv
  | und : Jv
  | nan : Jv
  | bool (b : Bool) : Jv
  | num (n : Int) : Jv
  | str (s : String) : Jv
  | arr (xs : List Jv) : Jv
  | obj (fs : List (String × Jv)) : Jv
  deriving Repr

mutual

/-- Structural equality on `Jv` as a boolean (the nested inductive defeats
the `DecidableEq` deriving handler). -/
def jvBeq : Jv → Jv → Bool
  | .null, w => match w with | .null => true | _ => false
  | .und, w => match w with | .und => true | _ => false
  | .nan, w => match w with | .nan => true | _ => false
  | .bool a, w => match w with | .bool b => a == b | _ => false
  | .num a, w => match w with | .num b => a == b | _ => false
  | .str a, w => match w with | .str b => a == b | _ => false
  | .arr xs, w => match w with | .arr ys => jvBeqL xs ys | _ => false
  | .obj fs, w => match w with | .obj gs => jvBeqF fs gs | _ => false

def jvBeqL : List Jv → List Jv → Bool
  | [], ys => match ys with | [] => true | _ => false
  | x :: xs, ys =>
    match ys with
    | y :: ys2 => jvBeq x y && jvBeqL xs ys2
    | _ => false

def jvBeqF : List (String × Jv) → List (String × Jv) → Bool
  | [], gs => match gs with | [] => true | _ => false
  | (k, v) :: fs, gs =>
    match gs with
    | (l, w) :: gs2 => k == l && jvBeq v w && jvBeqF fs gs2
    | _ => false

end

/-- Left and right brace characters, named so that serializer definitions
stay readable. -/
def lbrace : Char := Char.ofNat 123

def rbrace : Char := Char.ofNat 125

def dquoteCh : Char := Char.ofNat 34

def squoteCh : Char := Char.ofNat 39

def backslashCh : Char := Char.ofNat 92

/-- Whitespace for JavaScript `trim()` and the regex class `\s` (the ASCII
members; the engine's inputs never contain the exotic Unicode spaces). -/
def isWs (c : Char) : Bool :=
  c == ' ' || c == '\t' || c == '\n' || c == '\r' || c == Char.ofNat 11 || c == Char.ofNat 12

/-- The regex word class `\w`, i.e. ASCII letters, digits and underscore. -/
def isWordCh (c : Char) : Bool :=
  c.isAlpha || c.isDigit || c == '_'

def trimL (l : List Char) : List Char :=
  ((l.dropWhile isWs).reverse.dropWhile isWs).reverse

/-- `String.prototype.split(sep)` for a one-character separator: every
occurrence splits, empty segments included. -/
def splitCh (sep : Char) : List Char → List (List Char)
  | [] => [[]]
  | c :: rest =>
    if c == sep then [] :: splitCh sep rest
    else
      match splitCh sep rest with
      | [] => [[c]]
      | p :: ps => (c :: p) :: ps

/-- First index at which `tok` occurs in `l` (JavaScript `indexOf`). -/
def indexOfSub (l tok : List Char) : Option Nat :=
  if tok.isPrefixOf l then some 0
  else
    match l with
    | [] => none
    | _ :: rest => (indexOfSub rest tok).map (· + 1)

/-- Decimal digit character for `d ≤ 9`. -/
def digitCh (d : Nat) : Char := Char.ofNat (48 + d)

/-- Decimal digits of a natural number, most significant first, produced with
explicit fuel so the definition is structural (fuel `n + 1` always
suffices). -/
def digitsAux : Nat → Nat → List Char
  | 0, _ => []
  | fuel + 1, n => if n < 10 then [digitCh n] else digitsAux fuel (n / 10) ++ [digitCh (n % 10)]

def natDigits (n : Nat) : List Char := digitsAux (n + 1) n

/-- Rendering of an integer, as JavaScript renders integral numbers. -/
def serInt (n : Int) : List Char :=
  if n < 0 then '-' :: natDigits (-n).toNat else natDigits n.toNat

/-- Numeric value of a list of decimal digit characters. -/
def digitsVal (l : List Char) : Nat :=
  l.foldl (fun acc c => acc * 10 + (c.toNat - 48)) 0

/-- JavaScript `Number(string)` restricted to the integral forms the engine
meets: optional sign plus decimal digits, with surrounding whitespace
trimmed; the empty (or all-blank) string converts to 0; anything else is
NaN (`none`). Fractional, exponent and hexadecimal literal forms are outside
the integer number model. -/
def numParse (l : List Char) : Option Int :=
  let t := trimL l
  match t with
  | [] => some 0
  | '-' :: ds => if ds ≠ [] && ds.all Char.isDigit then some (-(digitsVal ds : Int)) else none
  | '+' :: ds => if ds ≠ [] && ds.all Char.isDigit then some (digitsVal ds) else none
  | ds => if ds.all Char.isDigit then some (digitsVal ds) else none

/-- JavaScript `parseInt(string)` on already-trimmed text: optional sign and
the longest leading run of decimal digits; NaN (`none`) when there is no
leading digit. -/
def parseIntJS (l : List Char) : Option Int :=
  match l with
  | '-' :: ds =>
    let run := ds.takeWhile Char.isDigit
    if run = [] then none else some (-(digitsVal run : Int))
  | '+' :: ds =>
    let run := ds.takeWhile Char.isDigit
    if run = [] then none else some (digitsVal run)
  | ds =>
    let run := ds.takeWhile Char.isDigit
    if run = [] then none else some (digitsVal run)

mutual

/-- JavaScript `String(v)` coercion on engine values. Arrays join their
elements with commas, `null`/`undefined` elements becoming empty (the
`Array.prototype.toString` behaviour); plain objects render as
`[object Object]`. -/
def jsToString : Jv → List Char
  | .null => "null".data
  | .und => "undefined".data
  | .nan => "NaN".data
  | .bool b => if b then "true".data else "false".data
  | .num n => serInt n
  | .str s => s.data
  | .arr xs => jsToStringElems xs
  | .obj _ => "[object Object]".data

def jsToStringElems : List Jv → List Char
  | [] => []
  | [x] => jsToStringElem x
  | x :: rest => jsToStringElem x ++ ',' :: jsToStringElems rest

/-- One joined element: `null` and `undefined` render empty; the other
cases repeat the `jsToString` bodies verbatim (spelled out so the mutual
recursion stays structural). -/
def jsToStringElem : Jv → List Char
  | .null => []
  | .und => []
  | .nan => "NaN".data
  | .bool b => if b then "true".data else "false".data
  | .num n => serInt n
  | .str s => s.data
  | .arr xs => jsToStringElems xs
  | .obj _ => "[object Object]".data

end

/-- JavaScript `Number(v)` coercion (`none` is NaN): `null` and the empty
string convert to 0, booleans to 0/1, arrays through their string join,
objects to NaN. -/
def jsToNumber : Jv → Option Int
  | .null => some 0
  | .und => none
  | .nan => none
  | .bool b => some (if b then 1 else 0)
  | .num n => some n
  | .str s => numParse s.data
  | .arr xs => numParse (jsToString (.arr xs))
  | .obj _ => none

/-- JavaScript truthiness. -/
def jsTruthy : Jv → Bool
  | .null => false
  | .und => false
  | .nan => false
  | .bool b => b
  | .num n => n != 0
  | .str s => s != ""
  | .arr _ => true
  | .obj _ => true

/-- JavaScript strict equality `===` as it behaves inside this engine:
values of different types are unequal, `NaN` equals nothing, and the two
operands of every `===` in the engine come from separate `JSON.parse`
calls, so two array/object operands are never the same reference and
compare unequal. -/
def jsStrictEq : Jv → Jv → Bool
  | .null, .null => true
  | .und, .und => true
  | .bool a, .bool b => a == b
  | .num a, .num b => a == b
  | .str a, .str b => a == b
  | _, _ => false

/-- SameValueZero, the comparison used by `Array.prototype.includes`: like
`===` but `NaN` matches `NaN`. -/
def jsSameValueZero : Jv → Jv → Bool
  | .nan, .nan => true
  | a, b => jsStrictEq a b

/-- Whether `typeof v === 'object' && v !== null` holds: plain objects and
arrays. -/
def isObjLike : Jv → Bool
  | .obj _ => true
  | .arr _ => true
  | _ => false

/-- Whether a string is a canonical array index ("0", or digits with no
leading zero): exactly the property keys under which JavaScript arrays
expose their elements. -/
def isCanonicalIndex : List Char → Bool
  | [] => false
  | ['0'] => true
  | c :: rest => c.isDigit && c != '0' && rest.all Char.isDigit

/-- Property access `v[key]` on the JSON data model: own fields of objects
(first binding wins, JSON objects have unique keys), canonical indices of
arrays; `undefined` otherwise. Callers in the engine only reach this behind
an `typeof v === 'object' && v !== null` guard, so `null`/`undefined`
receivers (which would throw in JavaScript) never occur. -/
def jsGet (v : Jv) (key : String) : Jv :=
  match v with
  | .obj fs => (fs.lookup key).getD .und
  | .arr xs =>
    if isCanonicalIndex key.data then ((xs.get? (digitsVal key.data)).getD .und) else .und
  | _ => .und

/-- `Object.entries(v)`: throws on `null`/`undefined`, yields index/value
pairs for arrays, index/character pairs for strings, fields for objects and
nothing for the remaining primitives. -/
def jsEntries : Jv → Except String (List (String × Jv))
  | .null => .error "TypeError: Cannot convert undefined or null to object"
  | .und => .error "TypeError: Cannot convert undefined or null to object"
  | .obj fs => .ok fs
  | .arr xs => .ok (xs.enum.map fun p => (String.mk (natDigits p.1), p.2))
  | .str s => .ok (s.data.enum.map fun p => (String.mk (natDigits p.1), .str (String.mk [p.2])))
  | _ => .ok []

def hexDigitCh (d : Nat) : Char :=
  if d < 10 then digitCh d else Char.ofNat (97 + (d - 10))

/-- JSON string escaping of one character, as `JSON.stringify` performs it. -/
def escapeChar (c : Char) : List Char :=
  if c == dquoteCh then [backslashCh, dquoteCh]
  else if c == backslashCh then [backslashCh, backslashCh]
  else if c == '\n' then [backslashCh, 'n']
  else if c == '\r' then [backslashCh, 'r']
  else if c == '\t' then [backslashCh, 't']
  else if c == Char.ofNat 8 then [backslashCh, 'b']
  else if c == Char.ofNat 12 then [backslashCh, 'f']
  else if c.toNat < 32 then [backslashCh, 'u', '0', '0', hexDigitCh (c.toNat / 16), hexDigitCh (c.toNat % 16)]
  else [c]

def escStr : List Char → List Char
  | [] => []
  | c :: rest => escapeChar c ++ escStr rest

def serStrLit (s : String) : List Char :=
  dquoteCh :: escStr s.data ++ [dquoteCh]

/-- Join a list of rendered pieces with commas. -/
def joinComma : List (List Char) → List Char
  | [] => []
  | [x] => x
  | x :: rest => x ++ ',' :: joinComma rest

mutual

/-- `JSON.stringify(v)` (compact form, the one used as the deduplication key
of the jq `unique` stage and in equality fallbacks). `undefined` has no
serialization (`none`); inside arrays it renders as `null`, object members
holding it are dropped; `NaN` renders as `null`. -/
def serJ : Jv → Option (List Char)
  | .und => none
  | .null => some "null".data
  | .nan => some "null".data
  | .bool b => some (if b then "true".data else "false".data)
  | .num n => some (serInt n)
  | .str s => some (serStrLit s)
  | .arr xs => some ('[' :: serArrB xs ++ [']'])
  | .obj fs => some (lbrace :: joinComma (serFields fs) ++ [rbrace])

def serArrB : List Jv → List Char
  | [] => []
  | [x] => serElem x
  | x :: rest => serElem x ++ ',' :: serArrB rest

/-- One array element of the compact serialization: `undefined` renders as
`null`; the other cases repeat the `serJ` bodies verbatim (spelled out so
the mutual recursion stays structural). -/
def serElem : Jv → List Char
  | .und => "null".data
  | .null => "null".data
  | .nan => "null".data
  | .bool b => if b then "true".data else "false".data
  | .num n => serInt n
  | .str s => serStrLit s
  | .arr xs => '[' :: serArrB xs ++ [']']
  | .obj fs => lbrace :: joinComma (serFields fs) ++ [rbrace]

def serFields : List (String × Jv) → List (List Char)
  | [] => []
  | (k, v) :: rest =>
    match serJ v with
    | none => serFields rest
    | some sv => (serStrLit k ++ ':' :: sv) :: serFields rest

end

mutual

/-- The value `JSON.parse(JSON.stringify(v))` yields, i.e. the JSON
normalization of a runtime value: `NaN` becomes `null`, `undefined` array
elements become `null`, object members holding `undefined` disappear.
(`jnorm .und` itself is a dead case: `JSON.stringify` of a top-level
`undefined` is not a string and the engine's only use, the `unique` stage,
throws before parsing in that case.) -/
def jnorm : Jv → Jv
  | .nan => .null
  | .arr xs => .arr (jnormL xs)
  | .obj fs => .obj (jnormF fs)
  | v => v

def jnormL : List Jv → List Jv
  | [] => []
  | x :: xs => jnormElem x :: jnormL xs

/-- One normalized array element: `undefined` becomes `null`; the other
cases repeat the `jnorm` bodies (spelled out so the mutual recursion stays
structural). -/
def jnormElem : Jv → Jv
  | .und => .null
  | .nan => .null
  | .arr xs => .arr (jnormL xs)
  | .obj fs => .obj (jnormF fs)
  | v => v

def jnormF : List (String × Jv) → List (String × Jv)
  | [] => []
  | (k, v) :: fs =>
    match v with
    | .und => jnormF fs
    | v => (k, jnorm v) :: jnormF fs

end

def indentSp (d : Nat) : List Char := List.replicate (2 * d) ' '

/-- Join pretty-rendered items: each on its own line at indent `d`,
separated by commas. -/
def joinPretty (d : Nat) : List (List Char) → List Char
  | [] => []
  | [x] => indentSp d ++ x
  | x :: rest => indentSp d ++ x ++ ',' :: '\n' :: joinPretty d rest

mutual

/-- `JSON.stringify(v, null, 2)`, the pretty serialization used for workflow
step outputs and query results: two-space indentation, `": "` after keys,
`[]`/the empty braces for empty containers. -/
def serP : Nat → Jv → Option (List Char)
  | _, .und => none
  | _, .null => some "null".data
  | _, .nan => some "null".data
  | _, .bool b => some (if b then "true".data else "false".data)
  | _, .num n => some (serInt n)
  | _, .str s => some (serStrLit s)
  | d, .arr xs =>
    match serPElems (d + 1) xs with
    | [] => some "[]".data
    | items => some ('[' :: '\n' :: joinPretty (d + 1) items ++ '\n' :: indentSp d ++ [']'])
  | d, .obj fs =>
    match serPFields (d + 1) fs with
    | [] => some [lbrace, rbrace]
    | items => some (lbrace :: '\n' :: joinPretty (d + 1) items ++ '\n' :: indentSp d ++ [rbrace])

def serPElems (d : Nat) : List Jv → List (List Char)
  | [] => []
  | x :: rest =>
    (match serP d x with
     | some s => s
     | none => "null".data) :: serPElems d rest

def serPFields (d : Nat) : List (String × Jv) → List (List Char)
  | [] => []
  | (k, v) :: rest =>
    match serP d v with
    | none => serPFields d rest
    | some sv => (serStrLit k ++ ':' :: ' ' :: sv) :: serPFields d rest

end

/-- Insert-or-update for JavaScript property assignment `r[k] = v`: an
existing key keeps its position and gets the new value, a new key is
appended. -/
def insertUpdate : List (String × Jv) → String → Jv → List (String × Jv)
  | [], k, v => [(k, v)]
  | (k0, v0) :: rest, k, v =>
    if k0 == k then (k0, v) :: rest else (k0, v0) :: insertUpdate rest k v

/-- Parse one path segment of the form `name[digits]` (the regex
`^(\w+)\[(\d+)\]$` of `getNestedValue`), returning the name and the digit
run. -/
def parseArrPart (p : List Char) : Option (List Char × List Char) :=
  let name := p.takeWhile isWordCh
  if name = [] then none
  else
    match p.drop name.length with
    | '[' :: r =>
      if r ≠ [] && r.getLast? == some ']' && r.dropLast ≠ [] && (r.dropLast).all Char.isDigit
      then some (name, r.dropLast)
      else none
    | _ => none

/-- The walking loop of `getNestedValue` over the already-split path parts:
a `null`/`undefined` value at the head of an iteration short-circuits to
`undefined`; a `name[digits]` part reads the field and then indexes only if
the field's value is an array (otherwise the field's value stands as is);
any other part is a plain property access. -/
def getNestedParts : Jv → List (List Char) → Jv
  | v, [] => v
  | v, p :: rest =>
    match v with
    | .null => .und
    | .und => .und
    | _ =>
      let cur :=
        match parseArrPart p with
        | some (name, ds) =>
          match jsGet v (String.mk name) with
          | .arr xs => (xs.get? (digitsVal ds)).getD .und
          | w => w
        | none => jsGet v (String.mk p)
      getNestedParts cur rest

/-- The shared path resolver `getNestedValue(obj, path)`: the empty path is
the identity, otherwise the path is split on dots and walked. It is total —
a missing field or out-of-range index flows through as `undefined` rather
than an error. -/
def getNestedValue (obj : Jv) (path : String) : Jv :=
  if path = "" then obj else getNestedParts obj (splitCh '.' path.data)

/-- Match the ordered operator alternation of a condition regex: the first
operator in `ops` order that is a prefix of `l` wins, as in a regex
alternation. -/
def matchOps (l : List Char) : List (List Char) → Option (List Char × List Char)
  | [] => none
  | op :: rest =>
    if op.isPrefixOf l then some (op, l.drop op.length) else matchOps l rest

/-- Match `^(\w+)\s*(op-alternation)(rest)$` where `rest` must be nonempty
(it corresponds to `\s*(.+)$`; the raw capture is only ever used trimmed, so
the returned remainder is the untrimmed text after the operator). -/
def matchFieldCond (l : List Char) (ops : List (List Char)) :
    Option (List Char × List Char × List Char) :=
  let key := l.takeWhile isWordCh
  if key = [] then none
  else
    match matchOps ((l.drop key.length).dropWhile isWs) ops with
    | none => none
    | some (op, r2) => if r2 = [] then none else some (key, op, r2)

/-- The operator alternation of `evalJqCondition`:
`(==|!=|>|>=|<|<=)` in source order (so `>=` can only be reached when `>`
fails, i.e. never — faithful to the original regex). -/
def jqOps : List (List Char) := [['=', '='], ['!', '='], ['>'], ['>', '='], ['<'], ['<', '=']]

/-- Literal coercion of the right-hand side of a jq `select` comparison:
`null`/`true`/`false`, a double-quoted string, a numeric literal, else the
bare text. -/
def jqLit (raw : List Char) : Jv :=
  if raw = "null".data then .null
  else if raw = "true".data then .bool true
  else if raw = "false".data then .bool false
  else if raw.length ≥ 2 && raw.head? == some dquoteCh && raw.getLast? == some dquoteCh then
    .str (String.mk (raw.drop 1).dropLast)
  else
    match numParse raw with
    | some n => .num n
    | none => .str (String.mk raw)

/-- One comparison of `evalJqCondition`: `==` falls back to
`JSON.stringify` equality, `!=` is strict-only, and the four orderings
coerce both sides with `Number(..)` (false whenever either side is NaN). -/
def jqCompare (fv : Jv) (op : List Char) (cv : Jv) : Bool :=
  if op = ['=', '='] then jsStrictEq fv cv || serJ fv == serJ cv
  else if op = ['!', '='] then !(jsStrictEq fv cv)
  else
    match jsToNumber fv, jsToNumber cv with
    | some a, some b =>
      if op = ['>'] then a > b
      else if op = ['>', '='] then a ≥ b
      else if op = ['<'] then a < b
      else a ≤ b
    | _, _ => false

/-- `evalJqCondition(item, cond)`: a `.field op literal` comparison when the
regex matches and the item is object-like; otherwise a bare `.field`
truthiness test on object-like items; otherwise `true`. -/
def evalJqCondition (item : Jv) (cond : List Char) : Bool :=
  let m := match cond with
    | c :: rest => if c == '.' then matchFieldCond rest jqOps else none
    | [] => none
  match m with
  | some (key, op, raw) =>
    if isObjLike item then
      jqCompare (jsGet item (String.mk key)) op (jqLit (trimL raw))
    else if cond.head? == some '.' && isObjLike item then
      jsTruthy (jsGet item (String.mk (cond.drop 1)))
    else true
  | none =>
    if cond.head? == some '.' && isObjLike item then
      jsTruthy (jsGet item (String.mk (cond.drop 1)))
    else true

/-- First-occurrence deduplication by `JSON.stringify` key with re-parsing,
i.e. `[...new Set(xs.map(x => JSON.stringify(x)))].map(s => JSON.parse(s))`
once no element is `undefined`: set insertion order is first occurrence, and
parsing a key back gives the JSON normalization of the first element bearing
it. -/
def uniqueGo : List Jv → List (List Char) → List Jv
  | [], _ => []
  | x :: rest, seen =>
    let k := (serJ x).getD []
    if seen.contains k then uniqueGo rest seen
    else jnorm x :: uniqueGo rest (k :: seen)

/-- The jq `unique` stage body:
`[...new Set(current.map(x => JSON.stringify(x)))].map(x => JSON.parse(x))`.
If some element is `undefined` its stringification is not a string and
`JSON.parse` throws a `SyntaxError`; otherwise the result keeps the first
occurrence of each distinct serialization, re-parsed (JSON-normalized). -/
def uniqueJq (xs : List Jv) : Except String (List Jv) :=
  if xs.any (fun x => jvBeq x .und) then
    .error "SyntaxError: undefined is not valid JSON"
  else
    .ok (uniqueGo xs [])

/-- JavaScript `a.includes(b)` on strings: substring containment. -/
def strIncludes (l sub : List Char) : Bool :=
  (indexOfSub l sub).isSome

/-- The default `Array.prototype.sort()` comparison: elements are converted
with `String(..)` and compared code-unit-wise; `undefined` elements sort to
the end. `strLtCh` is that string comparison. -/
def strLtCh : List Char → List Char → Bool
  | [], [] => false
  | [], _ :: _ => true
  | _ :: _, [] => false
  | a :: as, b :: bs => if a == b then strLtCh as bs else decide (a < b)

/-- JavaScript `Array.prototype.slice` index resolution: negative indices
count from the end, the result is clamped to `[0, len]`. -/
def sliceClamp (len : Nat) (i : Int) : Nat :=
  if i < 0 then len - (min len (-i).toNat) else min i.toNat len

/-- `Object.keys(v)` for the two object-like shapes (guarded by
`typeof v === 'object' && v !== null` at every use site). -/
def jsKeys : Jv → List String
  | .obj fs => fs.map Prod.fst
  | .arr xs => xs.enum.map fun p => String.mk (natDigits p.1)
  | _ => []

/-- `Object.values(v)` for the two object-like shapes. -/
def jsValues : Jv → List Jv
  | .obj fs => fs.map Prod.snd
  | .arr xs => xs
  | _ => []

def jqMapM (recur : Jv → List Char → Except String Jv) :
    List Jv → List Char → Except String (List Jv)
  | [], _ => .ok []
  | x :: xs, inner =>
    match recur x inner with
    | .error e => .error e
    | .ok y =>
      match jqMapM recur xs inner with
      | .error e => .error e
      | .ok ys => .ok (y :: ys)

/-- One trimmed stage of the jq chain, in exact source branch order. Stages
applied to a value of the wrong shape pass it through unchanged. -/
def jqStage (recur : Jv → List Char → Except String Jv) (data : Jv) (p : List Char) :
    Except String Jv :=
  if p = ['.'] then .ok data
  else if p = "keys".data ∨ p = "keys[]".data then
    .ok (if isObjLike data then .arr ((jsKeys data).map .str) else data)
  else if p = "values".data ∨ p = "values[]".data then
    .ok (if isObjLike data then .arr (jsValues data) else data)
  else if p = "length".data then
    .ok (match data with
      | .arr xs => .num xs.length
      | .obj fs => .num fs.length
      | .str s => .num s.length
      | v => v)
  else if p = "flatten".data then
    .ok (match data with
      | .arr xs => .arr (xs.flatMap fun x => match x with | .arr ys => ys | v => [v])
      | v => v)
  else if p = "sort".data then
    .ok (match data with
      | .arr xs =>
        .arr (((xs.filter fun x => !(jvBeq x .und)).mergeSort
                 (fun a b => !(strLtCh (jsToString b) (jsToString a)))) ++
              (xs.filter fun x => jvBeq x .und))
      | v => v)
  else if p = "unique".data then
    match data with
    | .arr xs => (uniqueJq xs).map .arr
    | v => .ok v
  else if p = "reverse".data then
    .ok (match data with | .arr xs => .arr xs.reverse | v => v)
  else if p = "type".data then
    .ok (.str (match data with
      | .arr _ => "array"
      | .null => "null"
      | .und => "undefined"
      | .nan => "number"
      | .bool _ => "boolean"
      | .num _ => "number"
      | .str _ => "string"
      | .obj _ => "object"))
  else if p.head? == some '.' then
    let k0 := p.drop 1
    let key := String.mk (if "[]".data.isSuffixOf k0 then (k0.dropLast).dropLast else k0)
    .ok (match data with
      | .arr xs =>
        .arr ((xs.map fun item => if isObjLike item then jsGet item key else .und).filter
          fun v => !(jvBeq v .und))
      | .obj fs => jsGet (.obj fs) key
      | v => v)
  else if "map(".data.isPrefixOf p && p.getLast? == some ')' then
    let inner := trimL ((p.drop 4).dropLast)
    match data with
    | .arr xs => (jqMapM recur xs inner).map .arr
    | v => .ok v
  else if "select(".data.isPrefixOf p && p.getLast? == some ')' then
    let cond := trimL ((p.drop 7).dropLast)
    .ok (match data with
      | .arr xs => .arr (xs.filter fun item => evalJqCondition item cond)
      | v => v)
  else if p.head? == some '[' && p.getLast? == some ']' then
    let inner := trimL ((p.drop 1).dropLast)
    match data with
    | .arr xs =>
      if inner ≠ [] && inner.all Char.isDigit then
        .ok ((xs.get? (digitsVal inner)).getD .und)
      else if inner.contains ':' then
        let mapped := (splitCh ':' inner).map fun n =>
          let t := trimL n
          if t = [] then none else some (parseIntJS t)
        let s := (mapped.get? 0).getD none
        let e := (mapped.get? 1).getD none
        let len := xs.length
        let startN := match s with
          | none => 0
          | some none => 0
          | some (some i) => sliceClamp len i
        let endN := match e with
          | none => len
          | some none => 0
          | some (some i) => sliceClamp len i
        .ok (.arr ((xs.drop startN).take (endN - startN)))
      else .ok data
    | v => .ok v
  else if p = "first".data then
    .ok (match data with | .arr xs => (xs.get? 0).getD .und | v => v)
  else if p = "last".data then
    .ok (match data with | .arr xs => (xs.getLast?).getD .und | v => v)
  else if p = "not".data then
    .ok (.bool (!jsTruthy data))
  else if p = "to_entries".data then
    .ok (match data with
      | .obj fs => .arr (fs.map fun kv => .obj [("key", .str kv.1), ("value", kv.2)])
      | v => v)
  else if p = "from_entries".data then
    .ok (match data with
      | .arr xs =>
        .obj (xs.foldl (fun r item =>
          match item with
          | .obj fs =>
            if (fs.lookup "key").isSome && (fs.lookup "value").isSome then
              insertUpdate r (String.mk (jsToString (jsGet (.obj fs) "key"))) (jsGet (.obj fs) "value")
            else r
          | _ => r) [])
      | v => v)
  else .ok data

/-- `executeJq(data, query)` (lines 874-946): split the query on every `|`,
trim each part and run the stages left to right. The `fuel` argument bounds
the recursion depth of the `map(expr)` stage, which re-invokes the whole
interpreter on a strictly shorter filter text; `executeJq` below supplies
`query.length + 1`, which therefore can never run out. The stage loop is
parameterized over the recursive re-entry (`recur`) so that the whole
interpreter is plainly structural. -/
def jqRun (recur : Jv → List Char → Except String Jv) :
    Jv → List (List Char) → Except String Jv
  | data, [] => .ok data
  | data, p :: rest =>
    match jqStage recur data p with
    | .error e => .error e
    | .ok d2 => jqRun recur d2 rest

def executeJqF : Nat → Jv → List Char → Except String Jv
  | 0, _, _ => .error "recursion depth exceeded"
  | fuel + 1, data, query => jqRun (executeJqF fuel) data ((splitCh '|' query).map trimL)

/-- `executeJq` with enough fuel for any chain of `map(..)` re-invocations
(each strictly shrinks the filter text, so depth is below the length). -/
def executeJq (data : Jv) (query : List Char) : Except String Jv :=
  executeJqF (query.length + 1) data query

/-- Match the JSONata aggregate form `pre(inner)` against the whole trimmed
query, i.e. the regex shape of `^\$sum\((\S+)\)$` and `^\$distinct\((\S+)\)$`:
the capture is everything between the fixed prefix and the final `)`, and
must be nonempty and whitespace-free. -/
def matchWrapped (pre : String) (s : List Char) : Option (List Char) :=
  if pre.data.isPrefixOf s && s.getLast? == some ')' then
    let mid := ((s.drop pre.length).dropLast)
    if mid ≠ [] && mid.all (fun c => !isWs c) then some mid else none
  else none

/-- The `$count($)` / `count($)` body (lines 982-986): array length, object
key count, else 1. -/
def jsonataCount : Jv → Jv
  | .arr xs => .num xs.length
  | .obj fs => .num fs.length
  | _ => .num 1

/-- The `$sum` body: an array reduces with `s + Number(v)` from 0 (NaN
absorbing), a non-array yields `Number(values)`. -/
def jsonataSum (values : Jv) : Jv :=
  match values with
  | .arr xs =>
    match xs.foldl (fun acc v =>
        match acc, jsToNumber v with
        | some a, some b => some (a + b)
        | _, _ => none) (some (0 : Int)) with
    | some n => .num n
    | none => .nan
  | v =>
    match jsToNumber v with
    | some n => .num n
    | none => .nan

/-- The `$distinct` body: the same stringify-Set-parse expression as the jq
`unique` stage on arrays, anything else passed through. -/
def jsonataDistinct (values : Jv) : Except String Jv :=
  match values with
  | .arr xs => (uniqueJq xs).map .arr
  | v => .ok v

/-- The operator alternation of the JSONata bracket predicate:
`(=|!=|>|<)` in source order. -/
def jsonataOps : List (List Char) := [['='], ['!', '='], ['>'], ['<']]

/-- Literal coercion of the predicate's right-hand side: a value wrapped in
single or double quotes (mismatched pairs allowed, as in the original
regex `^['"].*['"]$`) loses them, a numeric literal becomes a number, else
the bare text stands. -/
def jsonataLit (t : List Char) : Jv :=
  if t.length ≥ 2 &&
      (t.head? == some squoteCh || t.head? == some dquoteCh) &&
      (t.getLast? == some squoteCh || t.getLast? == some dquoteCh) then
    .str (String.mk ((t.drop 1).dropLast))
  else
    match numParse t with
    | some n => .num n
    | none => .str (String.mk t)

/-- One predicate test of the JSONata `field[cond]` filter: non-objects are
dropped; `=` falls back to `String(..)` equality, `!=` is strict-only, the
orderings coerce numerically (false on NaN). -/
def jsonataFilterTest (item : Jv) (fk : String) (fop : List Char) (cmp : Jv) : Bool :=
  if !isObjLike item then false
  else
    let v := jsGet item fk
    if fop = ['='] then jsStrictEq v cmp || jsToString v == jsToString cmp
    else if fop = ['!', '='] then !(jsStrictEq v cmp)
    else
      match jsToNumber v, jsToNumber cmp with
      | some a, some b => if fop = ['>'] then a > b else a < b
      | _, _ => false

/-- Parse a path segment of the shape `key[filter]` (the regex
`^(\w+)\[(.+)\]$`): a word-character key, then a bracketed nonempty filter
text running to the final `]`. -/
def parseJsonataFilterPart (p : List Char) : Option (List Char × List Char) :=
  let key := p.takeWhile isWordCh
  if key = [] then none
  else
    match p.drop key.length with
    | '[' :: r =>
      if r ≠ [] && r.getLast? == some ']' && r.dropLast ≠ [] then some (key, r.dropLast)
      else none
    | _ => none

/-- The walking loop of `resolveJsonataPath` (lines 1006-1052) over the
dot-split, empty-segment-filtered parts. `*` returns immediately (array
passthrough / object values); a `key[cond]` segment reads the field and, on
arrays with a parsable condition, filters; a plain segment maps over arrays
(dropping `undefined`) or reads an object field, and any other shape returns
`undefined` at once. -/
def rjGo : Jv → List (List Char) → Jv
  | cur, [] => cur
  | cur, p :: rest =>
    if p = ['*'] then
      match cur with
      | .arr xs => .arr xs
      | .obj fs => .arr (fs.map Prod.snd)
      | v => v
    else
      match parseJsonataFilterPart p with
      | some (key, filt) =>
        let c1 := if isObjLike cur then jsGet cur (String.mk key) else cur
        let c2 :=
          match c1 with
          | .arr xs =>
            (match matchFieldCond filt jsonataOps with
             | some (fk, fop, fraw) =>
               let cmp := jsonataLit (trimL fraw)
               Jv.arr (xs.filter fun item =>
                 jsonataFilterTest item (String.mk fk) fop cmp)
             | none => Jv.arr xs)
          | w => w
        rjGo c2 rest
      | none =>
        match cur with
        | .arr xs =>
          rjGo (.arr ((xs.map fun it => if isObjLike it then jsGet it (String.mk p) else .und).filter
            fun v => !(jvBeq v .und))) rest
        | .obj fs => rjGo (jsGet (.obj fs) (String.mk p)) rest
        | _ => .und

def resolveJsonataPath (data : Jv) (path : List Char) : Jv :=
  rjGo data ((splitCh '.' path).filter (fun p => p ≠ []))

/-- `executeJsonata(data, query)` (lines 977-1004): the two exact `$count`
forms, then the `$sum(path)` and `$distinct(path)` shapes, then generic path
navigation on the trimmed query. -/
def executeJsonata (data : Jv) (query : List Char) : Except String Jv :=
  let trimmed := trimL query
  if trimmed = "$count($)".data ∨ trimmed = "count($)".data then
    .ok (jsonataCount data)
  else
    match matchWrapped "$sum(" trimmed with
    | some p => .ok (jsonataSum (resolveJsonataPath data p))
    | none =>
      match matchWrapped "$distinct(" trimmed with
      | some p => jsonataDistinct (resolveJsonataPath data p)
      | none => .ok (resolveJsonataPath data trimmed)

mutual

/-- Size of a value, used to bound the Mongo matcher's recursion (which
descends through `$and`/`$or`/`$not` operands, all strictly smaller). -/
def jvSize : Jv → Nat
  | .null => 1
  | .und => 1
  | .nan => 1
  | .bool _ => 1
  | .num _ => 1
  | .str _ => 1
  | .arr xs => 1 + jvSizeL xs
  | .obj fs => 1 + jvSizeF fs

def jvSizeL : List Jv → Nat
  | [] => 0
  | x :: xs => jvSize x + jvSizeL xs

def jvSizeF : List (String × Jv) → Nat
  | [] => 0
  | (_, v) :: fs => jvSize v + jvSizeF fs

end

/-- A fragment of host regular-expression syntax validity: group
parentheses must balance, escaped characters are skipped, a trailing
backslash is invalid. Only a partial model of `new RegExp(..)` — no theorem
below relies on a pattern being accepted, only the engine's control flow
around compilation is in scope. -/
def regexWellFormed : List Char → Nat → Bool
  | [], depth => depth == 0
  | [c], depth => if c == backslashCh then false else
      if c == '(' then false else
      if c == ')' then depth != 0 && (depth - 1) == 0 else depth == 0
  | c :: c2 :: rest, depth =>
    if c == backslashCh then regexWellFormed rest depth
    else if c == '(' then regexWellFormed (c2 :: rest) (depth + 1)
    else if c == ')' then depth != 0 && regexWellFormed (c2 :: rest) (depth - 1)
    else regexWellFormed (c2 :: rest) depth

/-- Literal-pattern model of `new RegExp(p).test(s)`: substring containment.
Faithful for metacharacter-free patterns; no theorem below depends on the
result of a regex test. -/
def regexTest (p s : List Char) : Bool := strIncludes s p

/-- The operator loop over a field's operator object: each recognized
operator can only refuse the document; unknown operators are skipped.
`$regex` compiles its pattern (a syntax error there escapes the scan). -/
def mmOps (fieldVal : Jv) : List (String × Jv) → Except String Bool
  | [] => .ok true
  | (op, opVal) :: rest =>
    if op = "$eq" then
      if jsStrictEq fieldVal opVal then mmOps fieldVal rest else .ok false
    else if op = "$ne" then
      if jsStrictEq fieldVal opVal then .ok false else mmOps fieldVal rest
    else if op = "$gt" then
      match jsToNumber fieldVal, jsToNumber opVal with
      | some a, some b => if a ≤ b then .ok false else mmOps fieldVal rest
      | _, _ => mmOps fieldVal rest
    else if op = "$gte" then
      match jsToNumber fieldVal, jsToNumber opVal with
      | some a, some b => if a < b then .ok false else mmOps fieldVal rest
      | _, _ => mmOps fieldVal rest
    else if op = "$lt" then
      match jsToNumber fieldVal, jsToNumber opVal with
      | some a, some b => if a ≥ b then .ok false else mmOps fieldVal rest
      | _, _ => mmOps fieldVal rest
    else if op = "$lte" then
      match jsToNumber fieldVal, jsToNumber opVal with
      | some a, some b => if a > b then .ok false else mmOps fieldVal rest
      | _, _ => mmOps fieldVal rest
    else if op = "$in" then
      match opVal with
      | .arr vs => if vs.any (jsSameValueZero fieldVal) then mmOps fieldVal rest else .ok false
      | _ => .ok false
    else if op = "$nin" then
      match opVal with
      | .arr vs => if vs.any (jsSameValueZero fieldVal) then .ok false else mmOps fieldVal rest
      | _ => mmOps fieldVal rest
    else if op = "$exists" then
      if jsTruthy opVal && jvBeq fieldVal .und then .ok false
      else if !jsTruthy opVal && !jvBeq fieldVal .und then .ok false
      else mmOps fieldVal rest
    else if op = "$regex" then
      let pat := jsToString opVal
      if !regexWellFormed pat 0 then .error "SyntaxError: Invalid regular expression"
      else if regexTest pat (jsToString fieldVal) then mmOps fieldVal rest
      else .ok false
    else mmOps fieldVal rest

/-- `condition.every(c => matchesMongo(item, c))`: short-circuits on the
first false; an exception in a later element is then never raised. -/
def mmAll (recur : Jv → Except String Bool) : List Jv → Except String Bool
  | [] => .ok true
  | c :: cs =>
    match recur c with
    | .error e => .error e
    | .ok true => mmAll recur cs
    | .ok false => .ok false

/-- `condition.some(c => matchesMongo(item, c))`: short-circuits on the
first true. -/
def mmAny (recur : Jv → Except String Bool) : List Jv → Except String Bool
  | [] => .ok false
  | c :: cs =>
    match recur c with
    | .error e => .error e
    | .ok true => .ok true
    | .ok false => mmAny recur cs

/-- The entry loop of `matchesMongo`: a `$and`/`$or`/`$not` key returns
immediately (later entries are never looked at); a field entry with an
operator object checks each operator, and any other condition is direct
equality with a `JSON.stringify` fallback. `recur` is the recursive
re-entry of the matcher on an operand query. -/
def mmEntries (recur : Jv → Except String Bool) (item : Jv) :
    List (String × Jv) → Except String Bool
  | [] => .ok true
  | (k, c) :: rest =>
    if k = "$and" then
      match c with
      | .arr cs => mmAll recur cs
      | _ => .ok false
    else if k = "$or" then
      match c with
      | .arr cs => mmAny recur cs
      | _ => .ok false
    else if k = "$not" then
      match recur c with
      | .error e => .error e
      | .ok b => .ok (!b)
    else
      let fieldVal := jsGet item k
      match c with
      | .obj ops =>
        (match mmOps fieldVal ops with
         | .error e => .error e
         | .ok false => .ok false
         | .ok true => mmEntries recur item rest)
      | _ =>
        if jsStrictEq fieldVal c || serJ fieldVal == serJ c then mmEntries recur item rest
        else .ok false

/-- `matchesMongo(item, query)` (lines 1074-1118), with explicit fuel
bounding the `$and`/`$or`/`$not` recursion (operands are structurally
smaller, so `jvSize query + 1` always suffices — see `matchesMongo`).
Non-object items match nothing; `Object.entries` of a `null` query throws. -/
def matchesMongoF : Nat → Jv → Jv → Except String Bool
  | 0, _, _ => .error "recursion depth exceeded"
  | fuel + 1, item, query =>
    if !isObjLike item then .ok false
    else
      match jsEntries query with
      | .error e => .error e
      | .ok entries => mmEntries (matchesMongoF fuel item) item entries

/-- The matcher with its sufficient fuel. -/
def matchesMongo (item query : Jv) : Except String Bool :=
  matchesMongoF (jvSize query + 1) item query

def mongoFilter (query : Jv) : List Jv → Except String (List Jv)
  | [] => .ok []
  | x :: rest =>
    match matchesMongo x query with
    | .error e => .error e
    | .ok b =>
      match mongoFilter query rest with
      | .error e => .error e
      | .ok ys => .ok (if b then x :: ys else ys)

/-- `executeMongodb(data, queryStr)` (lines 1054-1072). The host
`JSON.parse` of the query text is modelled by the `Option Jv` argument
(`none` = the text is not valid JSON). Arrays are filtered per document; a
non-array object is replaced by its first array-valued top-level field if
one exists, else matched as a whole; other values are returned untouched.
The surrounding `try` wraps every failure — the parse failure and any error
escaping the scan — into an `Invalid MongoDB query` error. -/
def executeMongodb (data : Jv) (parsedQuery : Option Jv) : Except String Jv :=
  match parsedQuery with
  | none => .error "Invalid MongoDB query: SyntaxError: Unexpected token in JSON"
  | some query =>
    let run : Except String Jv :=
      match data with
      | .arr xs => (mongoFilter query xs).map .arr
      | .obj fs =>
        (match (fs.map Prod.snd).find? (fun v => match v with | .arr _ => true | _ => false) with
         | some (.arr xs) => (mongoFilter query xs).map .arr
         | _ =>
           match matchesMongo (.obj fs) query with
           | .error e => .error e
           | .ok b => .ok (if b then .obj fs else .null))
      | v => .ok v
    match run with
    | .ok v => .ok v
    | .error e => .error ("Invalid MongoDB query: " ++ e)

/-- The workflow step record (types module): `type` is one of the eight
step kinds; `name` is UI-only and never read by the engine. -/
inductive StepKind where
  | map | filter | sort | pick | omit | rename | jq | custom
  deriving Repr, DecidableEq

structure WorkflowStep where
  id : String
  name : String
  type : StepKind
  config : String
  enabled : Bool

/-- `parseFilterExpression(expr)` (lines 1916-1925): the first operator
token (in the fixed order `>=`, `<=`, `!=`, `==`, `>`, `<`, `contains`)
found anywhere in the text splits it into field, operator and value (value
trimmed and stripped of one leading and one trailing quote); with no
operator present the fallback is `[expr, '==', 'true']`. -/
def filterOps : List (List Char) :=
  [['>', '='], ['<', '='], ['!', '='], ['=', '='], ['>'], ['<'], "contains".data]

/-- Strip one leading and one trailing single or double quote
(`.replace(/^["']|["']$/g, '')`). -/
def stripQuoteEnds (l : List Char) : List Char :=
  let a := match l with
    | c :: rest => if c == dquoteCh || c == squoteCh then rest else l
    | [] => l
  match a.getLast? with
  | some c => if c == dquoteCh || c == squoteCh then a.dropLast else a
  | none => a

def parseFilterGo (expr : List Char) : List (List Char) → Option (List Char × List Char × List Char)
  | [] => none
  | op :: more =>
    match indexOfSub expr op with
    | some idx =>
      some (trimL (expr.take idx), op, stripQuoteEnds (trimL (expr.drop (idx + op.length))))
    | none => parseFilterGo expr more

def parseFilterExpression (expr : List Char) : List Char × List Char × List Char :=
  match parseFilterGo expr filterOps with
  | some r => r
  | none => (expr, ['=', '='], "true".data)

/-- One filter-step comparison (lines 1817-1827): `==`/`!=` compare the
`String(..)` coercion with the raw value text, the orderings coerce both
sides numerically (false on NaN), `contains` is substring containment, and
any other operator keeps the element. -/
def workflowFilterTest (field op val : List Char) (item : Jv) : Bool :=
  let itemVal := getNestedValue item (String.mk field)
  if op = ['=', '='] then jsToString itemVal == val
  else if op = ['!', '='] then jsToString itemVal != val
  else if op = ['>'] then
    match jsToNumber itemVal, numParse val with
    | some a, some b => a > b
    | _, _ => false
  else if op = ['<'] then
    match jsToNumber itemVal, numParse val with
    | some a, some b => a < b
    | _, _ => false
  else if op = ['>', '='] then
    match jsToNumber itemVal, numParse val with
    | some a, some b => a ≥ b
    | _, _ => false
  else if op = ['<', '='] then
    match jsToNumber itemVal, numParse val with
    | some a, some b => a ≤ b
    | _, _ => false
  else if op = "contains".data then strIncludes (jsToString itemVal) val
  else true

/-- Approximate model of
`String(a).localeCompare(String(b), undefined, { numeric: true })` used by
the sort step: digit runs compare by numeric value, other characters by
code point. Only the comparator shape matters to the claims below (no claim
inspects a sort step's output ordering). -/
def locNumCmpF : Nat → List Char → List Char → Int
  | 0, _, _ => 0
  | _ + 1, [], [] => 0
  | _ + 1, [], _ :: _ => -1
  | _ + 1, _ :: _, [] => 1
  | fuel + 1, a :: as, b :: bs =>
    if a.isDigit && b.isDigit then
      let ra := (a :: as).takeWhile Char.isDigit
      let rb := (b :: bs).takeWhile Char.isDigit
      let na := digitsVal ra
      let nb := digitsVal rb
      if na < nb then -1
      else if nb < na then 1
      else locNumCmpF fuel ((a :: as).drop ra.length) ((b :: bs).drop rb.length)
    else if a == b then locNumCmpF fuel as bs
    else if a < b then -1 else 1

def locNumCmp (a b : List Char) : Int :=
  locNumCmpF (a.length + b.length + 1) a b

/-- Split on runs of whitespace (`split(/\s+/)`) of an already-trimmed
nonempty text; the empty text yields one empty part, as in JavaScript. -/
def wsWordsF : Nat → List Char → List (List Char)
  | 0, _ => []
  | fuel + 1, l =>
    match l with
    | [] => []
    | _ =>
      let word := l.takeWhile (fun x => !isWs x)
      let next := (l.drop word.length).dropWhile isWs
      word :: wsWordsF fuel next

def wsSplit (l : List Char) : List (List Char) :=
  if l = [] then [[]] else wsWordsF (l.length + 1) l

/-- The `{ field1, field2: source }` projection of a map step applied to one
element. -/
def mapProject (cfg : List Char) (item : Jv) : Jv :=
  let expr := trimL cfg
  if expr.head? == some lbrace && expr.getLast? == some rbrace then
    let fields := (splitCh ',' ((expr.drop 1).dropLast)).map trimL
    .obj (fields.foldl (fun r f =>
      let fromTo :=
        if f.contains ':' then
          let parts := (splitCh ':' f).map trimL
          ((parts.get? 0).getD [], (parts.get? 1).getD [])
        else (f, f)
      insertUpdate r (String.mk fromTo.2) (getNestedValue item (String.mk fromTo.1))) [])
  else item

/-- The rename map: comma-separated `old:new` pairs, each side trimmed; a
pair without `:` maps to `undefined`; a duplicate `old` is overwritten by
the later pair (`new Map` semantics), hence lookup of the last binding. -/
def renameTo (mappings : List (List Char × Option (List Char))) (k : List Char) : List Char :=
  match mappings.reverse.find? (fun m => m.1 == k) with
  | some (_, some t) => if t = [] then k else t
  | some (_, none) => k
  | none => k

/-- `executeWorkflowStep(data, step)` (lines 1794-1897). The `custom` step
evaluates a user-authored JavaScript function via `new Function`; that host
evaluation is abstracted as the `evalCustom` oracle, an arbitrary
transformation that may throw. An error result models a thrown exception,
carrying `String(err)` of `throw new Error(msg)`. -/
def executeWorkflowStep (evalCustom : String → Jv → Except String Jv)
    (data : Jv) (step : WorkflowStep) : Except String Jv :=
  match step.type with
  | .map =>
    match data with
    | .arr xs => .ok (.arr (xs.map (mapProject step.config.data)))
    | _ => .error "Error: map requires an array"
  | .filter =>
    match data with
    | .arr xs =>
      match parseFilterExpression step.config.data with
      | (field, op, val) => .ok (.arr (xs.filter (workflowFilterTest field op val)))
    | _ => .error "Error: filter requires an array"
  | .sort =>
    match data with
    | .arr xs =>
      let parts := wsSplit (trimL step.config.data)
      let field := String.mk ((parts.get? 0).getD [])
      let desc := ((parts.get? 1).map (fun p => p.map Char.toLower)) == some "desc".data
      .ok (.arr (xs.mergeSort fun a b =>
        let c := locNumCmp (jsToString (getNestedValue a field)) (jsToString (getNestedValue b field))
        (if desc then -c else c) ≤ 0))
    | _ => .error "Error: sort requires an array"
  | .pick =>
    let fields := (splitCh ',' step.config.data).map (fun f => String.mk (trimL f))
    let pickOne := fun (v : Jv) =>
      Jv.obj (fields.foldl (fun r f => insertUpdate r f (getNestedValue v f)) [])
    .ok (match data with
      | .arr xs => .arr (xs.map pickOne)
      | v => pickOne v)
  | .omit =>
    let fields := (splitCh ',' step.config.data).map (fun f => String.mk (trimL f))
    let omitOne := fun (v : Jv) =>
      (jsEntries v).map fun es =>
        es.foldl (fun r kv => if fields.contains kv.1 then r else insertUpdate r kv.1 kv.2) []
    (match data with
      | .arr xs =>
        (xs.foldr (fun x acc =>
          match omitOne x, acc with
          | Except.ok y, Except.ok ys => Except.ok (y :: ys)
          | Except.error e, _ => Except.error e
          | _, Except.error e => Except.error e)
          (Except.ok ([] : List (List (String × Jv))))).map (fun ys => Jv.arr (ys.map Jv.obj))
      | v => (omitOne v).map Jv.obj)
  | .rename =>
    let mappings := (splitCh ',' step.config.data).map fun s =>
      let parts := (splitCh ':' (trimL s)).map trimL
      ((parts.get? 0).getD [], parts.get? 1)
    let renameOne := fun (v : Jv) =>
      (jsEntries v).map fun es =>
        es.foldl (fun r kv =>
          insertUpdate r (String.mk (renameTo mappings kv.1.data)) kv.2) []
    (match data with
      | .arr xs =>
        (xs.foldr (fun x acc =>
          match renameOne x, acc with
          | Except.ok y, Except.ok ys => Except.ok (y :: ys)
          | Except.error e, _ => Except.error e
          | _, Except.error e => Except.error e)
          (Except.ok ([] : List (List (String × Jv))))).map (fun ys => Jv.arr (ys.map Jv.obj))
      | v => (renameOne v).map Jv.obj)
  | .custom => evalCustom step.config data
  | .jq =>
    let path := trimL step.config.data
    if path.head? == some '.' then .ok (getNestedValue data (String.mk (path.drop 1)))
    else .ok data

/-- One trace entry (`stepResults` element): the output snapshot is
`JSON.stringify(current, null, 2)` (`none` when the value is `undefined`,
whose stringification is not a string). The wall-clock `time` field is not
modelled. -/
structure StepResult where
  stepId : String
  output : Option (List Char)
  error : Option String
  deriving Repr, DecidableEq

/-- The run loop of `handleRunWorkflow` (lines 1763-1782): disabled steps
are skipped silently; a successful step snapshots its output; a throwing
step records the pre-step snapshot together with the error and breaks the
loop. Returns the trace and the final value of `current`. -/
def runWorkflowAux (evalCustom : String → Jv → Except String Jv) :
    Jv → List WorkflowStep → List StepResult × Jv
  | cur, [] => ([], cur)
  | cur, s :: rest =>
    if !s.enabled then runWorkflowAux evalCustom cur rest
    else
      match executeWorkflowStep evalCustom cur s with
      | .ok next =>
        let r := runWorkflowAux evalCustom next rest
        (⟨s.id, serP 0 next, none⟩ :: r.1, r.2)
      | .error e => ([⟨s.id, serP 0 cur, some e⟩], cur)

/-- The response payload of `handleRunWorkflow`: the trace and
`finalOutput = JSON.stringify(current, null, 2)`. -/
def runWorkflow (evalCustom : String → Jv → Except String Jv)
    (input : Jv) (steps : List WorkflowStep) : List StepResult × Option (List Char) :=
  let r := runWorkflowAux evalCustom input steps
  (r.1, serP 0 r.2)

mutual

/-- Pure-JSON normal form: no `undefined` and no `NaN` anywhere. Exactly the
values of the specification's Value model (§3), i.e. everything
`JSON.parse` can produce. -/
def jvNF : Jv → Bool
  | .und => false
  | .nan => false
  | .arr xs => jvNFL xs
  | .obj fs => jvNFF fs
  | _ => true

def jvNFL : List Jv → Bool
  | [] => true
  | x :: xs => jvNF x && jvNFL xs

def jvNFF : List (String × Jv) → Bool
  | [] => true
  | (_, v) :: fs => jvNF v && jvNFF fs

end

/-- Specification-side description of the jq `unique` stage: keep the first
occurrence of each structurally distinct element, in input order. -/
def distinctFirstOccF : Nat → List Jv → List Jv
  | 0, _ => []
  | _ + 1, [] => []
  | fuel + 1, x :: rest => x :: distinctFirstOccF fuel (rest.filter fun y => !(jvBeq y x))

/-- Specification-side description continued: filtering only shrinks the
list, so fuel `length + 1` always suffices. -/
def distinctFirstOcc (xs : List Jv) : List Jv :=
  distinctFirstOccF (xs.length + 1) xs

mutual

/-- Mongo queries on which the per-document scan cannot raise: the query is
a JSON object; `$and`/`$or` operands (when arrays) are themselves safe
queries; a `$not` operand is a safe query; field conditions that are
operator objects contain no `$regex`. The two error sources of the scan —
`Object.entries(null)` on a combinator operand and regex compilation — are
thereby excluded. -/
def safeQuery : Jv → Bool
  | .obj fs => safeEntries fs
  | _ => false

def safeEntries : List (String × Jv) → Bool
  | [] => true
  | (k, c) :: rest =>
    if k = "$and" ∨ k = "$or" then
      match c with
      | .arr cs => safeQueryL cs
      | _ => true
    else if k = "$not" then safeQuery c
    else
      (match c with
       | .obj ops => safeOps ops
       | _ => true) && safeEntries rest

def safeQueryL : List Jv → Bool
  | [] => true
  | c :: cs => safeQuery c && safeQueryL cs

def safeOps : List (String × Jv) → Bool
  | [] => true
  | (op, _) :: rest => op ≠ "$regex" && safeOps rest

end

/-- Inverse of the two-character escape codes of `escapeChar`, used only in
the serializer-injectivity development. -/
def escDecode (x : Char) : Char :=
  if x = dquoteCh then dquoteCh
  else if x = backslashCh then backslashCh
  else if x = 'n' then '\n'
  else if x = 'r' then '\r'
  else if x = 't' then '\t'
  else if x = 'b' then Char.ofNat 8
  else if x = 'f' then Char.ofNat 12
  else x

/-! ## Structural induction for the nested value type -/

theorem Jv.myInduction (P : Jv → Prop)
    (h0 : P .null) (h1 : P .und) (h2 : P .nan)
    (h3 : ∀ b, P (.bool b)) (h4 : ∀ n, P (.num n)) (h5 : ∀ s, P (.str s))
    (h6 : ∀ xs, (∀ x ∈ xs, P x) → P (.arr xs))
    (h7 : ∀ fs, (∀ p ∈ fs, P p.2) → P (.obj fs)) : ∀ v, P v
  | .null => h0
  | .und => h1
  | .nan => h2
  | .bool b => h3 b
  | .num n => h4 n
  | .str s => h5 s
  | .arr xs => h6 xs (fun x hx => Jv.myInduction P h0 h1 h2 h3 h4 h5 h6 h7 x)
  | .obj fs => h7 fs (fun p hp => Jv.myInduction P h0 h1 h2 h3 h4 h5 h6 h7 p.2)
  termination_by v => sizeOf v
  decreasing_by
    · have := List.sizeOf_lt_of_mem hx
      simp at this ⊢
      omega
    · have := List.sizeOf_lt_of_mem hp
      obtain ⟨k, v⟩ := p
      simp at this ⊢
      omega

theorem jvBeq_refl : ∀ v, jvBeq v v = true := by
  intro v
  induction v using Jv.myInduction with
  | h6 xs ih =>
    show jvBeqL xs xs = true
    induction xs with
    | nil => rfl
    | cons x rest ihx =>
      simp only [jvBeqL, Bool.and_eq_true]
      exact ⟨ih x (by simp), ihx (fun y hy => ih y (by simp [hy]))⟩
  | h7 fs ih =>
    show jvBeqF fs fs = true
    induction fs with
    | nil => rfl
    | cons p rest ihf =>
      obtain ⟨k, v⟩ := p
      simp only [jvBeqF, Bool.and_eq_true]
      exact ⟨⟨by simp, ih ⟨k, v⟩ (by simp)⟩, ihf (fun q hq => ih q (by simp [hq]))⟩
  | _ => simp [jvBeq]

theorem jvBeqL_eq (xs : List Jv) :
    (∀ x ∈ xs, ∀ w, jvBeq x w = true → x = w) →
    ∀ ys, jvBeqL xs ys = true → xs = ys := by
  induction xs with
  | nil =>
    intro _ ys h
    cases ys with
    | nil => rfl
    | cons y ys2 => simp [jvBeqL] at h
  | cons x rest ihx =>
    intro hmem ys h
    cases ys with
    | nil => simp [jvBeqL] at h
    | cons y ys2 =>
      simp only [jvBeqL, Bool.and_eq_true] at h
      have e1 := hmem x (by simp) y h.1
      have e2 := ihx (fun z hz => hmem z (by simp [hz])) ys2 h.2
      rw [e1, e2]

theorem jvBeqF_eq (fs : List (String × Jv)) :
    (∀ p ∈ fs, ∀ w, jvBeq p.2 w = true → p.2 = w) →
    ∀ gs, jvBeqF fs gs = true → fs = gs := by
  induction fs with
  | nil =>
    intro _ gs h
    cases gs with
    | nil => rfl
    | cons g gs2 => simp [jvBeqF] at h
  | cons p rest ihf =>
    intro hmem gs h
    obtain ⟨k, v⟩ := p
    cases gs with
    | nil => simp [jvBeqF] at h
    | cons g gs2 =>
      obtain ⟨l, w2⟩ := g
      simp only [jvBeqF, Bool.and_eq_true] at h
      have e1 : k = l := by simpa using h.1.1
      have e2 : v = w2 := hmem ⟨k, v⟩ (by simp) w2 h.1.2
      have e3 : rest = gs2 := ihf (fun q hq => hmem q (by simp [hq])) gs2 h.2
      rw [e1, e2, e3]

theorem jvBeq_eq : ∀ v w, jvBeq v w = true → v = w := by
  intro v
  induction v using Jv.myInduction with
  | h6 xs ih =>
    intro w h
    cases w with
    | arr ys => rw [jvBeqL_eq xs ih ys h]
    | _ => simp_all [jvBeq]
  | h7 fs ih =>
    intro w h
    cases w with
    | obj gs => rw [jvBeqF_eq fs ih gs h]
    | _ => simp_all [jvBeq]
  | _ => intro w h; cases w <;> simp_all [jvBeq]

theorem jvBeq_iff (v w : Jv) : jvBeq v w = true ↔ v = w := by
  constructor
  · exact jvBeq_eq v w
  · intro h
    rw [h]
    exact jvBeq_refl w

/-! ## The shared path resolver (claim C4) -/

theorem getNestedParts_und : ∀ parts, getNestedParts .und parts = .und := by
  intro parts
  cases parts <;> rfl

theorem getNestedParts_append (a : List (List Char)) :
    ∀ v b, getNestedParts v (a ++ b) = getNestedParts (getNestedParts v a) b := by
  induction a with
  | nil => intro v b; rfl
  | cons p rest ih =>
    intro v b
    cases v with
    | null =>
      show Jv.und = getNestedParts Jv.und b
      exact (getNestedParts_und b).symm
    | und =>
      show Jv.und = getNestedParts Jv.und b
      exact (getNestedParts_und b).symm
    | nan => exact ih _ b
    | bool x => exact ih _ b
    | num x => exact ih _ b
    | str x => exact ih _ b
    | arr x => exact ih _ b
    | obj x => exact ih _ b

/-- Claim C4. The shared resolver `getNestedValue` on
`{"a": {"b": [1,2,3]}}` with accessor `a.b[5]` returns the `Absent` marker
(JavaScript `undefined`), which is distinct from the JSON `null` value; the
resolver is a total function (it cannot raise), and in general a missing
field at any step, or an in-bounds field holding an array indexed out of
range by a `name[digits]` step, resolves the whole accessor to `Absent`. -/
theorem getNestedValue_absent :
    getNestedValue (.obj [("a", .obj [("b", .arr [.num 1, .num 2, .num 3])])]) "a.b[5]" = .und
    ∧ Jv.und ≠ Jv.null
    ∧ (∀ (v : Jv) (pre post : List (List Char)) (p : List Char) (fs : List (String × Jv)),
        getNestedParts v pre = .obj fs →
        parseArrPart p = none →
        fs.lookup (String.mk p) = none →
        getNestedParts v (pre ++ p :: post) = .und)
    ∧ (∀ (v : Jv) (pre post : List (List Char)) (p name ds : List Char) (xs : List Jv),
        parseArrPart p = some (name, ds) →
        jsGet (getNestedParts v pre) (String.mk name) = .arr xs →
        xs.length ≤ digitsVal ds →
        getNestedParts v (pre ++ p :: post) = .und) := by
  refine ⟨rfl, by simp, ?_, ?_⟩
  · intro v pre post p fs hpre hnoarr hlook
    rw [getNestedParts_append, hpre]
    show getNestedParts _ (p :: post) = _
    simp only [getNestedParts, hnoarr]
    have : jsGet (.obj fs) (String.mk p) = .und := by
      simp [jsGet, hlook]
    rw [this]
    exact getNestedParts_und post
  · intro v pre post p name ds xs harr hget hlen
    rw [getNestedParts_append]
    cases hv : getNestedParts v pre with
    | null => rfl
    | und => rfl
    | nan => rw [hv] at hget; simp [jsGet] at hget
    | bool b => rw [hv] at hget; simp [jsGet] at hget
    | num n => rw [hv] at hget; simp [jsGet] at hget
    | str s => rw [hv] at hget; simp [jsGet] at hget
    | arr ys =>
      rw [hv] at hget
      show getNestedParts _ (p :: post) = _
      simp only [getNestedParts, harr, hget]
      have : (xs.get? (digitsVal ds)).getD .und = .und := by
        rw [List.get?_eq_none.mpr hlen]
        rfl
      rw [this]
      exact getNestedParts_und post
    | obj fs =>
      rw [hv] at hget
      show getNestedParts _ (p :: post) = _
      simp only [getNestedParts, harr, hget]
      have : (xs.get? (digitsVal ds)).getD .und = .und := by
        rw [List.get?_eq_none.mpr hlen]
        rfl
      rw [this]
      exact getNestedParts_und post

/-- Witness for C4's universally quantified parts, at the concrete value
`{"a": {"b": [1,2,3]}}`: the missing-field case on accessor parts
`["a", "c"]` and the out-of-range case on `["a", "b[5]"]`. -/
theorem getNestedValue_absent_witness :
    getNestedParts (.obj [("a", .obj [("b", .arr [.num 1, .num 2, .num 3])])])
      (["a".data] ++ "c".data :: []) = .und
    ∧ getNestedParts (.obj [("a", .obj [("b", .arr [.num 1, .num 2, .num 3])])])
      (["a".data] ++ "b[5]".data :: []) = .und := by
  constructor
  · exact (getNestedValue_absent.2.2.1)
      (.obj [("a", .obj [("b", .arr [.num 1, .num 2, .num 3])])])
      ["a".data] [] "c".data [("b", .arr [.num 1, .num 2, .num 3])] rfl rfl rfl
  · exact (getNestedValue_absent.2.2.2)
      (.obj [("a", .obj [("b", .arr [.num 1, .num 2, .num 3])])])
      ["a".data] [] "b[5]".data "b".data "5".data [.num 1, .num 2, .num 3] rfl rfl (by decide)

/-! ## The jq example query (claim C1) -/

/-- Claim C1 (evaluation of the code at the spec's example). For the input
`[{"age":17},{"age":30},{"age":45}]`, the jq-subset filter
`.[] | select(.age > 18)` evaluates to the EMPTY array, not to
`[{"age":30},{"age":45}]` as the specification states: `executeJq` parses
the segment `.[]` through its generic `.field` branch, strips the trailing
`[]` and is left with the field name `""`; mapping every element to its
(nonexistent) `""` property yields `undefined` throughout, and the
undefined results are filtered away before `select` ever runs. -/
theorem jq_iterate_select_example :
    executeJq (.arr [.obj [("age", .num 17)], .obj [("age", .num 30)], .obj [("age", .num 45)]])
      ".[] | select(.age > 18)".data = .ok (.arr []) := rfl

/-! ## Workflow step-order observability (claim C5) -/

/-- Claim C5. Applying the workflow `[pick("a,b"), rename("a:x")]` to
`{"a":1,"b":2,"c":3}` reports the serialized final output
`{"x": 1, "b": 2}` (pretty-printed, as `JSON.stringify(.., null, 2)`
renders it), while the swapped order `[rename("a:x"), pick("a,b")]` reports
`{"b": 2}`: after the rename, `pick` finds no `a` and stores `undefined`
under `a`, which serialization drops. Step order is observable in the
result. -/
theorem workflow_step_order_observable : ∀ ec : String → Jv → Except String Jv,
    (runWorkflow ec (.obj [("a", .num 1), ("b", .num 2), ("c", .num 3)])
      [⟨"1", "pick", .pick, "a,b", true⟩, ⟨"2", "rename", .rename, "a:x", true⟩]).2 =
      some "\x7b\n  \"x\": 1,\n  \"b\": 2\n\x7d".data
    ∧ (runWorkflow ec (.obj [("a", .num 1), ("b", .num 2), ("c", .num 3)])
      [⟨"1", "rename", .rename, "a:x", true⟩, ⟨"2", "pick", .pick, "a,b", true⟩]).2 =
      some "\x7b\n  \"b\": 2\n\x7d".data := by
  intro ec
  exact ⟨rfl, rfl⟩

/-! ## Workflow halting behaviour (claims C2 and C3) -/

theorem runWorkflowAux_append (ec : String → Jv → Except String Jv) :
    ∀ (pre : List WorkflowStep) (v : Jv) (rest : List WorkflowStep),
    (∀ r ∈ (runWorkflowAux ec v pre).1, r.error = none) →
    runWorkflowAux ec v (pre ++ rest) =
      ((runWorkflowAux ec v pre).1 ++ (runWorkflowAux ec (runWorkflowAux ec v pre).2 rest).1,
       (runWorkflowAux ec (runWorkflowAux ec v pre).2 rest).2) := by
  intro pre
  induction pre with
  | nil => intro v rest h; rfl
  | cons s pre2 ih =>
    intro v rest h
    by_cases hs : s.enabled
    · simp only [List.cons_append, runWorkflowAux, hs]
      cases hex : executeWorkflowStep ec v s with
      | ok next =>
        have h2 : ∀ r ∈ (runWorkflowAux ec next pre2).1, r.error = none := by
          intro r hr
          apply h
          simp only [runWorkflowAux, hs, hex]
          simp [hr]
        simp only [Bool.not_eq_eq_eq_not, Bool.not_true]
        rw [if_neg (by simp [hs])]
        rw [if_neg (by simp [hs])]
        simp only [hex, List.append_eq]
        rw [ih next rest h2]
        simp [runWorkflowAux, hs, hex]
      | error e =>
        exfalso
        have := h ⟨s.id, serP 0 v, some e⟩ (by simp [runWorkflowAux, hs, hex])
        simp at this
    · simp only [List.cons_append, runWorkflowAux]
      rw [if_pos (by simp [hs]), if_pos (by simp [hs])]
      exact ih v rest (by
        intro r hr
        apply h
        simpa [runWorkflowAux, hs] using hr)

/-- Claim C2. For every workflow run in which the enabled steps of a prefix
`pre` all succeed (no trace entry carries an error), the next enabled step
`s` raises, and arbitrary steps `post` follow: the run's trace is exactly
the prefix trace plus one entry for `s` carrying the error and the pre-step
snapshot, no step of `post` contributes anything, and the final value (the
one serialized into `finalOutput`) is the value `w` reached by the last
successful step — the parsed input itself when `pre` is empty. -/
theorem workflow_halts_on_error (ec : String → Jv → Except String Jv)
    (pre post : List WorkflowStep) (s : WorkflowStep) (v : Jv) (e : String)
    (hpre : ∀ r ∈ (runWorkflowAux ec v pre).1, r.error = none)
    (hs : s.enabled = true)
    (herr : executeWorkflowStep ec (runWorkflowAux ec v pre).2 s = .error e) :
    runWorkflowAux ec v (pre ++ s :: post) =
      ((runWorkflowAux ec v pre).1 ++
        [⟨s.id, serP 0 (runWorkflowAux ec v pre).2, some e⟩],
       (runWorkflowAux ec v pre).2)
    ∧ (runWorkflow ec v (pre ++ s :: post)).2 = serP 0 (runWorkflowAux ec v pre).2 := by
  have step1 : runWorkflowAux ec (runWorkflowAux ec v pre).2 (s :: post) =
      ([⟨s.id, serP 0 (runWorkflowAux ec v pre).2, some e⟩], (runWorkflowAux ec v pre).2) := by
    simp [runWorkflowAux, hs, herr]
  have main := runWorkflowAux_append ec pre v (s :: post) hpre
  rw [step1] at main
  refine ⟨main, ?_⟩
  simp [runWorkflow, main]

/-- Witness for C2: input `[1]`, one-step prefix `pick("a")` succeeding,
then an enabled `filter` step applied to the resulting non-array object,
which throws; the trailing step never runs. -/
theorem workflow_halts_on_error_witness :
    (∀ r ∈ (runWorkflowAux (fun _ v => .ok v) (.obj [])
        [⟨"1", "p", .pick, "a", true⟩]).1, r.error = none)
    ∧ (⟨"2", "f", .filter, "a > 1", true⟩ : WorkflowStep).enabled = true
    ∧ executeWorkflowStep (fun _ v => .ok v)
        (runWorkflowAux (fun _ v => .ok v) (.obj []) [⟨"1", "p", .pick, "a", true⟩]).2
        ⟨"2", "f", .filter, "a > 1", true⟩ = .error "Error: filter requires an array"
    ∧ runWorkflowAux (fun _ v => .ok v) (.obj [])
        ([⟨"1", "p", .pick, "a", true⟩] ++ ⟨"2", "f", .filter, "a > 1", true⟩ ::
          [⟨"3", "p", .pick, "a", true⟩]) =
      ((runWorkflowAux (fun _ v => .ok v) (.obj []) [⟨"1", "p", .pick, "a", true⟩]).1 ++
        [⟨"2", some "\x7b\x7d".data, some "Error: filter requires an array"⟩],
       (runWorkflowAux (fun _ v => .ok v) (.obj []) [⟨"1", "p", .pick, "a", true⟩]).2) := by
  refine ⟨by decide, rfl, rfl, ?_⟩
  have h := workflow_halts_on_error (fun _ v => .ok v)
    [⟨"1", "p", .pick, "a", true⟩] [⟨"3", "p", .pick, "a", true⟩]
    ⟨"2", "f", .filter, "a > 1", true⟩ (.obj []) "Error: filter requires an array"
    (by decide) rfl rfl
  exact h.1

/-- Counterexample to claim C3. A three-step workflow whose steps are all
enabled and whose second step has kind `jq` with syntactically malformed
filter text `((` produces THREE trace entries, none carrying an error, and
the final value is untouched: a workflow `jq` step is plain path resolution
(`getNestedValue` behind a leading-dot check) and cannot raise, so the
malformed text is silently ignored rather than halting the run after two
entries. -/
theorem workflow_jq_malformed_no_halt :
    runWorkflowAux (fun _ v => .ok v) (.obj [("a", .num 1)])
      [⟨"1", "j", .jq, ".", true⟩, ⟨"2", "j", .jq, "((", true⟩, ⟨"3", "j", .jq, ".", true⟩] =
      ([⟨"1", some "\x7b\n  \"a\": 1\n\x7d".data, none⟩,
        ⟨"2", some "\x7b\n  \"a\": 1\n\x7d".data, none⟩,
        ⟨"3", some "\x7b\n  \"a\": 1\n\x7d".data, none⟩],
       .obj [("a", .num 1)])
    ∧ (runWorkflowAux (fun _ v => .ok v) (.obj [("a", .num 1)])
        [⟨"1", "j", .jq, ".", true⟩, ⟨"2", "j", .jq, "((", true⟩,
         ⟨"3", "j", .jq, ".", true⟩]).1.length = 3 := ⟨rfl, rfl⟩

/-- Claim C3 as amended. A workflow `jq` step never raises (any config,
malformed or not, yields a value), so a jq step cannot trigger the halt;
and for every three-step all-enabled workflow whose second step DOES raise
(on the value produced by the first), the run produces exactly 2 step
results, with the error recorded on the second and the final value — the
one serialized into `finalOutput` — equal to the first step's output. -/
theorem workflow_three_step_halt :
    (∀ (ec : String → Jv → Except String Jv) (v : Jv) (st : WorkflowStep),
      st.type = .jq → ∃ w, executeWorkflowStep ec v st = .ok w)
    ∧ (∀ (ec : String → Jv → Except String Jv) (s1 s2 s3 : WorkflowStep) (v w : Jv) (e : String),
      s1.enabled = true → s2.enabled = true →
      executeWorkflowStep ec v s1 = .ok w →
      executeWorkflowStep ec w s2 = .error e →
      runWorkflowAux ec v [s1, s2, s3] =
        ([⟨s1.id, serP 0 w, none⟩, ⟨s2.id, serP 0 w, some e⟩], w)
      ∧ (runWorkflow ec v [s1, s2, s3]).2 = serP 0 w) := by
  constructor
  · intro ec v st hjq
    obtain ⟨id, nm, ty, cfg, en⟩ := st
    simp only at hjq
    subst hjq
    simp only [executeWorkflowStep]
    by_cases h : (trimL cfg.data).head? == some '.'
    · rw [if_pos h]; exact ⟨_, rfl⟩
    · rw [if_neg h]; exact ⟨_, rfl⟩
  · intro ec s1 s2 s3 v w e h1 h2 hok herr
    have hrun : runWorkflowAux ec v [s1, s2, s3] =
        ([⟨s1.id, serP 0 w, none⟩, ⟨s2.id, serP 0 w, some e⟩], w) := by
      simp [runWorkflowAux, h1, h2, hok, herr]
    exact ⟨hrun, by simp [runWorkflow, hrun]⟩

/-- Witness for the amended C3: first step `jq "."` (identity), second step
`filter` on the resulting object (throws `filter requires an array`), third
step never runs. -/
theorem workflow_three_step_halt_witness :
    (∃ w, executeWorkflowStep (fun _ v => .ok v) (.obj [("a", .num 1)])
      ⟨"1", "j", .jq, ".", true⟩ = .ok w)
    ∧ runWorkflowAux (fun _ v => .ok v) (.obj [("a", .num 1)])
        [⟨"1", "j", .jq, ".", true⟩, ⟨"2", "f", .filter, "x", true⟩, ⟨"3", "j", .jq, ".", true⟩] =
      ([⟨"1", some "\x7b\n  \"a\": 1\n\x7d".data, none⟩,
        ⟨"2", some "\x7b\n  \"a\": 1\n\x7d".data, some "Error: filter requires an array"⟩],
       .obj [("a", .num 1)]) := by
  constructor
  · exact workflow_three_step_halt.1 (fun _ v => .ok v) (.obj [("a", .num 1)])
      ⟨"1", "j", .jq, ".", true⟩ rfl
  · exact (workflow_three_step_halt.2 (fun _ v => .ok v)
      ⟨"1", "j", .jq, ".", true⟩ ⟨"2", "f", .filter, "x", true⟩ ⟨"3", "j", .jq, ".", true⟩
      (.obj [("a", .num 1)]) (.obj [("a", .num 1)]) "Error: filter requires an array"
      rfl rfl rfl rfl).1

/-! ## Workflow filter fallback (claim C6) -/

theorem stringMk_data : ∀ s : String, String.mk s.data = s := fun ⟨_⟩ => rfl

theorem parseFilterGo_none (expr : List Char) :
    ∀ ops, (∀ tok ∈ ops, indexOfSub expr tok = none) → parseFilterGo expr ops = none := by
  intro ops
  induction ops with
  | nil => intro _; rfl
  | cons op more ih =>
    intro h
    simp only [parseFilterGo, h op (by simp)]
    exact ih (fun tok ht => h tok (by simp [ht]))

/-- Counterexample to claim C6. The config text `a` contains none of the
seven operator tokens, yet the filter step applied to `[{"a":1}]` drops the
element (the fallback parse is `field == true`, and `String(1)` is not
`"true"`): the result is `[]`, not the unchanged input. -/
theorem workflow_filter_fallback_drops :
    (∀ tok ∈ filterOps, indexOfSub "a".data tok = none)
    ∧ executeWorkflowStep (fun _ v => .ok v) (.arr [.obj [("a", .num 1)]])
        ⟨"1", "f", .filter, "a", true⟩ = .ok (.arr [])
    ∧ Jv.arr [] ≠ Jv.arr [.obj [("a", .num 1)]] := by
  refine ⟨by decide, rfl, by simp⟩

/-- Claim C6 as amended. For every array input and every filter-step config
containing none of the seven operator tokens, the parse falls back to
`[config, '==', 'true']`, so the step keeps exactly those elements whose
value at the path given by the whole config text stringifies to `"true"` —
not every element. -/
theorem workflow_filter_no_op_tokens (ec : String → Jv → Except String Jv)
    (xs : List Jv) (cfg id nm : String) (en : Bool)
    (h : ∀ tok ∈ filterOps, indexOfSub cfg.data tok = none) :
    executeWorkflowStep ec (.arr xs) ⟨id, nm, .filter, cfg, en⟩ =
      .ok (.arr (xs.filter fun item =>
        jsToString (getNestedValue item cfg) == "true".data)) := by
  have hparse : parseFilterExpression cfg.data = (cfg.data, ['=', '='], "true".data) := by
    simp [parseFilterExpression, parseFilterGo_none cfg.data filterOps h]
  simp only [executeWorkflowStep, hparse]
  refine congrArg (fun l => Except.ok (Jv.arr l)) ?_
  apply List.filter_congr
  intro item _
  simp [workflowFilterTest, stringMk_data]

/-- Witness for the amended C6 at config `a` on `[{"a":1}, {"a":"true"}]`:
the element whose field stringifies to `"true"` is kept, the other dropped. -/
theorem workflow_filter_no_op_tokens_witness :
    executeWorkflowStep (fun _ v => .ok v)
      (.arr [.obj [("a", .num 1)], .obj [("a", .str "true")]])
      ⟨"1", "f", .filter, "a", true⟩ =
    .ok (.arr ([.obj [("a", .num 1)], .obj [("a", .str "true")]].filter fun item =>
      jsToString (getNestedValue item "a") == "true".data)) :=
  workflow_filter_no_op_tokens (fun _ v => .ok v)
    [.obj [("a", .num 1)], .obj [("a", .str "true")]] "a" "1" "f" true (by decide)

/-! ## JSONata aggregate recognition (claim C7) -/

theorem trimL_eq_self (l : List Char)
    (hh : ∀ c, l.head? = some c → isWs c = false)
    (hl : ∀ c, l.getLast? = some c → isWs c = false) : trimL l = l := by
  have h1 : l.dropWhile isWs = l := by
    cases l with
    | nil => rfl
    | cons c rest =>
      rw [List.dropWhile_cons_of_neg]
      simp [hh c rfl]
  have h2 : l.reverse.dropWhile isWs = l.reverse := by
    cases hr : l.reverse with
    | nil => rfl
    | cons c rest =>
      rw [List.dropWhile_cons_of_neg]
      have : l.getLast? = some c := by
        rw [← List.head?_reverse, hr]
        rfl
      simp [hl c this]
  unfold trimL
  rw [h1, h2, List.reverse_reverse]

/-- Counterexample to claim C7. `$count(a)` on `[{"a":1}]` is NOT
recognized as an aggregate: `executeJsonata` only accepts the two exact
spellings `$count($)` and `count($)`, so the query falls through to generic
path navigation, where the segment `$count(a)` is a nonexistent property
name and every element is dropped — the result is `[]`, not the count `1`
of what the path `a` resolves to. -/
theorem jsonata_count_not_general :
    executeJsonata (.arr [.obj [("a", .num 1)]]) "$count(a)".data = .ok (.arr [])
    ∧ jsonataCount (resolveJsonataPath (.arr [.obj [("a", .num 1)]]) "a".data) = .num 1
    ∧ Jv.arr [] ≠ Jv.num 1 := by
  exact ⟨rfl, rfl, by simp⟩

theorem matchWrapped_append (pre : String) (p : List Char) (hne : p ≠ [])
    (hws : ∀ c ∈ p, isWs c = false) :
    matchWrapped pre (pre.data ++ p ++ [')']) = some p := by
  unfold matchWrapped
  rw [if_pos]
  · have hdrop : List.drop pre.length (pre.data ++ (p ++ [')'])) = p ++ [')'] := by
      rw [show pre.length = pre.data.length from rfl]
      exact List.drop_left _ _
    simp only [List.append_assoc]
    rw [hdrop, List.dropLast_concat]
    rw [if_pos]
    simp only [Bool.and_eq_true, decide_eq_true_eq, List.all_eq_true]
    exact ⟨hne, fun c hc => by simp [hws c hc]⟩
  · simp only [Bool.and_eq_true]
    refine ⟨?_, ?_⟩
    · rw [List.isPrefixOf_iff_prefix, List.append_assoc]
      exact List.prefix_append _ _
    · rw [List.getLast?_concat]
      rfl

theorem trimL_wrapped (pre : String) (p : List Char) (hpre : pre.data.head? = some '$') :
    trimL (pre.data ++ p ++ [')']) = pre.data ++ p ++ [')'] := by
  apply trimL_eq_self
  · intro c hc
    cases hd : pre.data with
    | nil => rw [hd] at hpre; simp at hpre
    | cons c0 r =>
      rw [hd] at hpre
      simp at hpre
      rw [hd] at hc
      simp [List.cons_append] at hc
      rw [← hc, hpre]
      rfl
  · intro c hc
    rw [List.getLast?_concat] at hc
    simp at hc
    rw [← hc]
    rfl

/-- Claim C7 as amended. `executeJsonata` recognizes `$sum(p)` and
`$distinct(p)` as first-class aggregates for EVERY nonempty whitespace-free
path text `p`, evaluating the aggregate over whatever `p` resolves to,
before falling back to generic path navigation; `$count`, however, is
recognized only in the two exact spellings `$count($)` / `count($)`
(counting the whole input), never applied to a general path. -/
theorem jsonata_aggregate_recognition :
    (∀ d : Jv, executeJsonata d "$count($)".data = .ok (jsonataCount d)
      ∧ executeJsonata d "count($)".data = .ok (jsonataCount d))
    ∧ (∀ (d : Jv) (p : List Char), p ≠ [] → (∀ c ∈ p, isWs c = false) →
        executeJsonata d ("$sum(".data ++ p ++ [')']) =
          .ok (jsonataSum (resolveJsonataPath d p)))
    ∧ (∀ (d : Jv) (p : List Char), p ≠ [] → (∀ c ∈ p, isWs c = false) →
        executeJsonata d ("$distinct(".data ++ p ++ [')']) =
          jsonataDistinct (resolveJsonataPath d p)) := by
  refine ⟨fun d => ⟨rfl, rfl⟩, ?_, ?_⟩
  · intro d p hne hws
    have htrim := trimL_wrapped "$sum(" p rfl
    have hmatch := matchWrapped_append "$sum(" p hne hws
    have hnc1 : ("$sum(".data ++ p ++ [')'] = "$count($)".data) = False := by
      simp only [eq_iff_iff, iff_false]
      intro h
      have h2 := congrArg (fun l => l.get? 1) h
      simp [List.cons_append] at h2
    have hnc2 : ("$sum(".data ++ p ++ [')'] = "count($)".data) = False := by
      simp only [eq_iff_iff, iff_false]
      intro h
      have h2 := congrArg (fun l => l.get? 0) h
      simp [List.cons_append] at h2
    unfold executeJsonata
    rw [htrim, if_neg (by rw [hnc1, hnc2]; simp), hmatch]
  · intro d p hne hws
    have htrim := trimL_wrapped "$distinct(" p rfl
    have hmatch := matchWrapped_append "$distinct(" p hne hws
    have hnosum : matchWrapped "$sum(" ("$distinct(".data ++ p ++ [')']) = none := by
      unfold matchWrapped
      rw [if_neg]
      simp [List.isPrefixOf, List.cons_append]
    have hnc1 : ("$distinct(".data ++ p ++ [')'] = "$count($)".data) = False := by
      simp only [eq_iff_iff, iff_false]
      intro h
      have h2 := congrArg (fun l => l.get? 1) h
      simp [List.cons_append] at h2
    have hnc2 : ("$distinct(".data ++ p ++ [')'] = "count($)".data) = False := by
      simp only [eq_iff_iff, iff_false]
      intro h
      have h2 := congrArg (fun l => l.get? 0) h
      simp [List.cons_append] at h2
    unfold executeJsonata
    rw [htrim, if_neg (by rw [hnc1, hnc2]; simp), hnosum, hmatch]

/-- Witness for the amended C7 at path `age` over
`[{"age":17},{"age":30},{"age":45}]`. -/
theorem jsonata_aggregate_recognition_witness :
    executeJsonata (.arr [.obj [("age", .num 17)], .obj [("age", .num 30)], .obj [("age", .num 45)]])
      ("$sum(".data ++ "age".data ++ [')']) =
      .ok (jsonataSum (resolveJsonataPath
        (.arr [.obj [("age", .num 17)], .obj [("age", .num 30)], .obj [("age", .num 45)]])
        "age".data)) :=
  jsonata_aggregate_recognition.2.1
    (.arr [.obj [("age", .num 17)], .obj [("age", .num 30)], .obj [("age", .num 45)]])
    "age".data (by decide) (by decide)

/-! ## Mongo scan safety (claim C8) -/

theorem jvSize_pos : ∀ v, 1 ≤ jvSize v := by
  intro v
  cases v <;> simp [jvSize]

theorem jvSizeF_le_of_mem : ∀ (fs : List (String × Jv)) k c, (k, c) ∈ fs → jvSize c ≤ jvSizeF fs := by
  intro fs
  induction fs with
  | nil => intro k c h; simp at h
  | cons p rest ih =>
    intro k c h
    obtain ⟨k0, c0⟩ := p
    rcases List.mem_cons.mp h with h1 | h1
    · obtain ⟨e1, e2⟩ := Prod.mk.injEq .. ▸ h1
      injection h1 with e1 e2
      subst e2
      simp [jvSizeF]
    · have := ih k c h1
      simp [jvSizeF]
      omega

theorem jvSizeL_le_of_mem : ∀ (xs : List Jv) x, x ∈ xs → jvSize x ≤ jvSizeL xs := by
  intro xs
  induction xs with
  | nil => intro x h; simp at h
  | cons y rest ih =>
    intro x h
    rcases List.mem_cons.mp h with h1 | h1
    · subst h1; simp [jvSizeL]
    · have := ih x h1
      simp [jvSizeL]
      omega

theorem safeQueryL_mem : ∀ (cs : List Jv) x, x ∈ cs → safeQueryL cs = true → safeQuery x = true := by
  intro cs
  induction cs with
  | nil => intro x h; simp at h
  | cons y ys ih =>
    intro x hx hs
    simp only [safeQueryL, Bool.and_eq_true] at hs
    rcases List.mem_cons.mp hx with h1 | h1
    · subst h1; exact hs.1
    · exact ih x h1 hs.2

theorem mmAll_ok (r : Jv → Except String Bool) :
    ∀ cs, (∀ x ∈ cs, ∃ b, r x = .ok b) → ∃ b, mmAll r cs = .ok b := by
  intro cs
  induction cs with
  | nil => exact fun _ => ⟨true, rfl⟩
  | cons y ys ih =>
    intro h
    obtain ⟨b1, hb1⟩ := h y (by simp)
    obtain ⟨b2, hb2⟩ := ih (fun x hx => h x (by simp [hx]))
    simp only [mmAll, hb1]
    cases b1
    · exact ⟨false, rfl⟩
    · exact ⟨b2, hb2⟩

theorem mmAny_ok (r : Jv → Except String Bool) :
    ∀ cs, (∀ x ∈ cs, ∃ b, r x = .ok b) → ∃ b, mmAny r cs = .ok b := by
  intro cs
  induction cs with
  | nil => exact fun _ => ⟨false, rfl⟩
  | cons y ys ih =>
    intro h
    obtain ⟨b1, hb1⟩ := h y (by simp)
    obtain ⟨b2, hb2⟩ := ih (fun x hx => h x (by simp [hx]))
    simp only [mmAny, hb1]
    cases b1
    · exact ⟨b2, hb2⟩
    · exact ⟨true, rfl⟩

theorem mmOps_ok (fv : Jv) : ∀ ops, safeOps ops = true → ∃ b, mmOps fv ops = .ok b := by
  intro ops
  induction ops with
  | nil => exact fun _ => ⟨true, rfl⟩
  | cons p rest ih =>
    intro hsafe
    obtain ⟨op, ov⟩ := p
    have hop : op ≠ "$regex" ∧ safeOps rest = true := by
      simpa [safeOps] using hsafe
    obtain ⟨b, hb⟩ := ih hop.2
    simp only [mmOps]
    by_cases h1 : op = "$eq"
    · rw [if_pos h1]
      split
      · exact ⟨b, hb⟩
      · exact ⟨false, rfl⟩
    rw [if_neg h1]
    by_cases h2 : op = "$ne"
    · rw [if_pos h2]
      split
      · exact ⟨false, rfl⟩
      · exact ⟨b, hb⟩
    rw [if_neg h2]
    by_cases h3 : op = "$gt"
    · rw [if_pos h3]
      repeat' split
      all_goals first | exact ⟨false, rfl⟩ | exact ⟨b, hb⟩
    rw [if_neg h3]
    by_cases h4 : op = "$gte"
    · rw [if_pos h4]
      repeat' split
      all_goals first | exact ⟨false, rfl⟩ | exact ⟨b, hb⟩
    rw [if_neg h4]
    by_cases h5 : op = "$lt"
    · rw [if_pos h5]
      repeat' split
      all_goals first | exact ⟨false, rfl⟩ | exact ⟨b, hb⟩
    rw [if_neg h5]
    by_cases h6 : op = "$lte"
    · rw [if_pos h6]
      repeat' split
      all_goals first | exact ⟨false, rfl⟩ | exact ⟨b, hb⟩
    rw [if_neg h6]
    by_cases h7 : op = "$in"
    · rw [if_pos h7]
      repeat' split
      all_goals first | exact ⟨false, rfl⟩ | exact ⟨b, hb⟩
    rw [if_neg h7]
    by_cases h8 : op = "$nin"
    · rw [if_pos h8]
      repeat' split
      all_goals first | exact ⟨false, rfl⟩ | exact ⟨b, hb⟩
    rw [if_neg h8]
    by_cases h9 : op = "$exists"
    · rw [if_pos h9]
      repeat' split
      all_goals first | exact ⟨false, rfl⟩ | exact ⟨b, hb⟩
    rw [if_neg h9]
    rw [if_neg hop.1]
    exact ⟨b, hb⟩

theorem mmEntries_ok (f : Nat) (item : Jv)
    (ih : ∀ q2, jvSize q2 < f → safeQuery q2 = true → ∃ b, matchesMongoF f item q2 = .ok b) :
    ∀ fs, safeEntries fs = true → jvSizeF fs < f →
      ∃ b, mmEntries (matchesMongoF f item) item fs = .ok b := by
  intro fs
  induction fs with
  | nil => exact fun _ _ => ⟨true, rfl⟩
  | cons p rest ihf =>
    intro hse hsz
    obtain ⟨k, c⟩ := p
    have hc1 : jvSize c ≤ jvSizeF ((k, c) :: rest) := jvSizeF_le_of_mem _ k c (by simp)
    have hrest : jvSizeF rest < f := by
      simp only [jvSizeF] at hsz ⊢
      have := jvSize_pos c
      omega
    simp only [mmEntries]
    by_cases hand : k = "$and"
    · rw [if_pos hand]
      have hsc := hse
      unfold safeEntries at hsc
      rw [if_pos (Or.inl hand : k = "$and" ∨ k = "$or")] at hsc
      cases c with
      | arr cs =>
        apply mmAll_ok
        intro x hx
        apply ih x
        · have h1 := jvSizeL_le_of_mem cs x hx
          have h2 : jvSize (Jv.arr cs) = 1 + jvSizeL cs := rfl
          omega
        · exact safeQueryL_mem cs x hx hsc
      | null => exact ⟨false, rfl⟩
      | und => exact ⟨false, rfl⟩
      | nan => exact ⟨false, rfl⟩
      | bool b0 => exact ⟨false, rfl⟩
      | num n0 => exact ⟨false, rfl⟩
      | str s0 => exact ⟨false, rfl⟩
      | obj fs0 => exact ⟨false, rfl⟩
    rw [if_neg hand]
    by_cases hor : k = "$or"
    · rw [if_pos hor]
      have hsc := hse
      unfold safeEntries at hsc
      rw [if_pos (Or.inr hor : k = "$and" ∨ k = "$or")] at hsc
      cases c with
      | arr cs =>
        apply mmAny_ok
        intro x hx
        apply ih x
        · have h1 := jvSizeL_le_of_mem cs x hx
          have h2 : jvSize (Jv.arr cs) = 1 + jvSizeL cs := rfl
          omega
        · exact safeQueryL_mem cs x hx hsc
      | null => exact ⟨false, rfl⟩
      | und => exact ⟨false, rfl⟩
      | nan => exact ⟨false, rfl⟩
      | bool b0 => exact ⟨false, rfl⟩
      | num n0 => exact ⟨false, rfl⟩
      | str s0 => exact ⟨false, rfl⟩
      | obj fs0 => exact ⟨false, rfl⟩
    rw [if_neg hor]
    by_cases hnot : k = "$not"
    · rw [if_pos hnot]
      have hsc := hse
      unfold safeEntries at hsc
      rw [if_neg (by simp [hand, hor] : ¬(k = "$and" ∨ k = "$or")), if_pos hnot] at hsc
      obtain ⟨b, hb⟩ := ih c (by omega) hsc
      rw [hb]
      exact ⟨!b, rfl⟩
    rw [if_neg hnot]
    have hsc := hse
    unfold safeEntries at hsc
    rw [if_neg (by simp [hand, hor] : ¬(k = "$and" ∨ k = "$or")), if_neg hnot,
      Bool.and_eq_true] at hsc
    obtain ⟨b2, hb2⟩ := ihf hsc.2 hrest
    cases c with
    | obj ops =>
      show ∃ b, (match mmOps (jsGet item k) ops with
          | Except.error e => Except.error e
          | Except.ok false => Except.ok false
          | Except.ok true => mmEntries (matchesMongoF f item) item rest) = Except.ok b
      obtain ⟨b1, hb1⟩ := mmOps_ok (jsGet item k) ops hsc.1
      rw [hb1]
      cases b1
      · exact ⟨false, rfl⟩
      · exact ⟨b2, hb2⟩
    | null =>
      show ∃ b, (if (jsStrictEq (jsGet item k) Jv.null || serJ (jsGet item k) == serJ Jv.null) = true
          then mmEntries (matchesMongoF f item) item rest else Except.ok false) = Except.ok b
      split
      · exact ⟨b2, hb2⟩
      · exact ⟨false, rfl⟩
    | und =>
      show ∃ b, (if (jsStrictEq (jsGet item k) Jv.und || serJ (jsGet item k) == serJ Jv.und) = true
          then mmEntries (matchesMongoF f item) item rest else Except.ok false) = Except.ok b
      split
      · exact ⟨b2, hb2⟩
      · exact ⟨false, rfl⟩
    | nan =>
      show ∃ b, (if (jsStrictEq (jsGet item k) Jv.nan || serJ (jsGet item k) == serJ Jv.nan) = true
          then mmEntries (matchesMongoF f item) item rest else Except.ok false) = Except.ok b
      split
      · exact ⟨b2, hb2⟩
      · exact ⟨false, rfl⟩
    | bool b0 =>
      show ∃ b, (if (jsStrictEq (jsGet item k) (Jv.bool b0) || serJ (jsGet item k) == serJ (Jv.bool b0)) = true
          then mmEntries (matchesMongoF f item) item rest else Except.ok false) = Except.ok b
      split
      · exact ⟨b2, hb2⟩
      · exact ⟨false, rfl⟩
    | num n0 =>
      show ∃ b, (if (jsStrictEq (jsGet item k) (Jv.num n0) || serJ (jsGet item k) == serJ (Jv.num n0)) = true
          then mmEntries (matchesMongoF f item) item rest else Except.ok false) = Except.ok b
      split
      · exact ⟨b2, hb2⟩
      · exact ⟨false, rfl⟩
    | str s0 =>
      show ∃ b, (if (jsStrictEq (jsGet item k) (Jv.str s0) || serJ (jsGet item k) == serJ (Jv.str s0)) = true
          then mmEntries (matchesMongoF f item) item rest else Except.ok false) = Except.ok b
      split
      · exact ⟨b2, hb2⟩
      · exact ⟨false, rfl⟩
    | arr xs0 =>
      show ∃ b, (if (jsStrictEq (jsGet item k) (Jv.arr xs0) || serJ (jsGet item k) == serJ (Jv.arr xs0)) = true
          then mmEntries (matchesMongoF f item) item rest else Except.ok false) = Except.ok b
      split
      · exact ⟨b2, hb2⟩
      · exact ⟨false, rfl⟩

theorem matchesMongoF_safe_ok :
    ∀ fuel (q item : Jv), jvSize q < fuel → safeQuery q = true →
      ∃ b, matchesMongoF fuel item q = .ok b := by
  intro fuel
  induction fuel with
  | zero => intro q item h; omega
  | succ f ih =>
    intro q item hsz hsafe
    cases q with
    | obj fs =>
      simp only [matchesMongoF]
      by_cases hitem : isObjLike item = true
      · rw [if_neg (by simp [hitem])]
        apply mmEntries_ok f item (fun q2 h1 h2 => ih q2 item h1 h2) fs hsafe
        have : jvSize (Jv.obj fs) = 1 + jvSizeF fs := rfl
        omega
      · rw [if_pos (by simp [Bool.not_eq_true] at hitem; simp [hitem])]
        exact ⟨false, rfl⟩
    | null => simp [safeQuery] at hsafe
    | und => simp [safeQuery] at hsafe
    | nan => simp [safeQuery] at hsafe
    | bool b => simp [safeQuery] at hsafe
    | num n => simp [safeQuery] at hsafe
    | str s => simp [safeQuery] at hsafe
    | arr xs => simp [safeQuery] at hsafe

theorem mongoFilter_ok (q : Jv) (hq : safeQuery q = true) :
    ∀ xs, ∃ ys, mongoFilter q xs = .ok ys := by
  intro xs
  induction xs with
  | nil => exact ⟨[], rfl⟩
  | cons x rest ih =>
    obtain ⟨b, hb⟩ := matchesMongoF_safe_ok (jvSize q + 1) q x (by omega) hq
    obtain ⟨ys, hys⟩ := ih
    simp only [mongoFilter, matchesMongo, hb, hys]
    exact ⟨_, rfl⟩

/-- Counterexample to claim C8. The query text `null` is valid JSON, yet
scanning the one-document collection `[{}]` raises (wrapped as an
`Invalid MongoDB query` error): `matchesMongo` reaches
`Object.entries(null)`, which throws — and the same query over the empty
collection succeeds, so for a fixed valid-JSON query whether an error is
raised DOES depend on the documents scanned. -/
theorem mongo_valid_json_scan_error :
    executeMongodb (.arr [.obj []]) (some .null) =
      .error "Invalid MongoDB query: TypeError: Cannot convert undefined or null to object"
    ∧ executeMongodb (.arr []) (some .null) = .ok (.arr []) := ⟨rfl, rfl⟩

/-- Claim C8 as amended. Query text that is not valid JSON fails before any
document is considered, with an error independent of the data; and for
every query that parses to a JSON OBJECT containing no `$regex` operator
and no null/scalar surprises under `$and`/`$or`/`$not` (the `safeQuery`
predicate), the per-document scan raises no error on any input data. For
valid-JSON queries outside that class (e.g. the literal `null`, or an
invalid `$regex` pattern) the scan itself can raise, as the counterexample
shows. -/
theorem mongo_fail_fast :
    (∀ data : Jv, executeMongodb data none =
      .error "Invalid MongoDB query: SyntaxError: Unexpected token in JSON")
    ∧ (∀ data q : Jv, safeQuery q = true → ∃ v, executeMongodb data (some q) = .ok v) := by
  constructor
  · intro data; rfl
  · intro data q hq
    cases data with
    | arr xs =>
      obtain ⟨ys, hys⟩ := mongoFilter_ok q hq xs
      simp only [executeMongodb, hys]
      exact ⟨_, rfl⟩
    | obj fs =>
      simp only [executeMongodb]
      cases hf : (fs.map Prod.snd).find? (fun v => match v with | .arr _ => true | _ => false) with
      | none =>
        obtain ⟨b, hb⟩ := matchesMongoF_safe_ok (jvSize q + 1) q (.obj fs) (by omega) hq
        refine ⟨if b = true then Jv.obj fs else Jv.null, ?_⟩
        show (match (match matchesMongoF (jvSize q + 1) (.obj fs) q with
            | Except.error e => Except.error e
            | Except.ok b => Except.ok (if b = true then Jv.obj fs else Jv.null)) with
          | Except.ok v => Except.ok v
          | Except.error e => Except.error ("Invalid MongoDB query: " ++ e)) =
          Except.ok (if b = true then Jv.obj fs else Jv.null)
        rw [hb]
      | some w =>
        cases w with
        | arr xs =>
          obtain ⟨ys, hys⟩ := mongoFilter_ok q hq xs
          refine ⟨.arr ys, ?_⟩
          show (match Except.map Jv.arr (mongoFilter q xs) with
            | Except.ok v => Except.ok v
            | Except.error e => Except.error ("Invalid MongoDB query: " ++ e)) =
            Except.ok (.arr ys)
          rw [hys]
          rfl
        | null =>
          obtain ⟨b, hb⟩ := matchesMongoF_safe_ok (jvSize q + 1) q (.obj fs) (by omega) hq
          refine ⟨if b = true then Jv.obj fs else Jv.null, ?_⟩
          show (match (match matchesMongoF (jvSize q + 1) (.obj fs) q with
              | Except.error e => Except.error e
              | Except.ok b => Except.ok (if b = true then Jv.obj fs else Jv.null)) with
            | Except.ok v => Except.ok v
            | Except.error e => Except.error ("Invalid MongoDB query: " ++ e)) =
            Except.ok (if b = true then Jv.obj fs else Jv.null)
          rw [hb]
        | und =>
          obtain ⟨b, hb⟩ := matchesMongoF_safe_ok (jvSize q + 1) q (.obj fs) (by omega) hq
          refine ⟨if b = true then Jv.obj fs else Jv.null, ?_⟩
          show (match (match matchesMongoF (jvSize q + 1) (.obj fs) q with
              | Except.error e => Except.error e
              | Except.ok b => Except.ok (if b = true then Jv.obj fs else Jv.null)) with
            | Except.ok v => Except.ok v
            | Except.error e => Except.error ("Invalid MongoDB query: " ++ e)) =
            Except.ok (if b = true then Jv.obj fs else Jv.null)
          rw [hb]
        | nan =>
          obtain ⟨b, hb⟩ := matchesMongoF_safe_ok (jvSize q + 1) q (.obj fs) (by omega) hq
          refine ⟨if b = true then Jv.obj fs else Jv.null, ?_⟩
          show (match (match matchesMongoF (jvSize q + 1) (.obj fs) q with
              | Except.error e => Except.error e
              | Except.ok b => Except.ok (if b = true then Jv.obj fs else Jv.null)) with
            | Except.ok v => Except.ok v
            | Except.error e => Except.error ("Invalid MongoDB query: " ++ e)) =
            Except.ok (if b = true then Jv.obj fs else Jv.null)
          rw [hb]
        | bool b0 =>
          obtain ⟨b, hb⟩ := matchesMongoF_safe_ok (jvSize q + 1) q (.obj fs) (by omega) hq
          refine ⟨if b = true then Jv.obj fs else Jv.null, ?_⟩
          show (match (match matchesMongoF (jvSize q + 1) (.obj fs) q with
              | Except.error e => Except.error e
              | Except.ok b => Except.ok (if b = true then Jv.obj fs else Jv.null)) with
            | Except.ok v => Except.ok v
            | Except.error e => Except.error ("Invalid MongoDB query: " ++ e)) =
            Except.ok (if b = true then Jv.obj fs else Jv.null)
          rw [hb]
        | num n0 =>
          obtain ⟨b, hb⟩ := matchesMongoF_safe_ok (jvSize q + 1) q (.obj fs) (by omega) hq
          refine ⟨if b = true then Jv.obj fs else Jv.null, ?_⟩
          show (match (match matchesMongoF (jvSize q + 1) (.obj fs) q with
              | Except.error e => Except.error e
              | Except.ok b => Except.ok (if b = true then Jv.obj fs else Jv.null)) with
            | Except.ok v => Except.ok v
            | Except.error e => Except.error ("Invalid MongoDB query: " ++ e)) =
            Except.ok (if b = true then Jv.obj fs else Jv.null)
          rw [hb]
        | str s0 =>
          obtain ⟨b, hb⟩ := matchesMongoF_safe_ok (jvSize q + 1) q (.obj fs) (by omega) hq
          refine ⟨if b = true then Jv.obj fs else Jv.null, ?_⟩
          show (match (match matchesMongoF (jvSize q + 1) (.obj fs) q with
              | Except.error e => Except.error e
              | Except.ok b => Except.ok (if b = true then Jv.obj fs else Jv.null)) with
            | Except.ok v => Except.ok v
            | Except.error e => Except.error ("Invalid MongoDB query: " ++ e)) =
            Except.ok (if b = true then Jv.obj fs else Jv.null)
          rw [hb]
        | obj fs0 =>
          obtain ⟨b, hb⟩ := matchesMongoF_safe_ok (jvSize q + 1) q (.obj fs) (by omega) hq
          refine ⟨if b = true then Jv.obj fs else Jv.null, ?_⟩
          show (match (match matchesMongoF (jvSize q + 1) (.obj fs) q with
              | Except.error e => Except.error e
              | Except.ok b => Except.ok (if b = true then Jv.obj fs else Jv.null)) with
            | Except.ok v => Except.ok v
            | Except.error e => Except.error ("Invalid MongoDB query: " ++ e)) =
            Except.ok (if b = true then Jv.obj fs else Jv.null)
          rw [hb]
    | null => exact ⟨_, rfl⟩
    | und => exact ⟨_, rfl⟩
    | nan => exact ⟨_, rfl⟩
    | bool b => exact ⟨_, rfl⟩
    | num n => exact ⟨_, rfl⟩
    | str st => exact ⟨_, rfl⟩

/-- Witness for the amended C8: the `$gt` query from the spec's own example
over `[{"age":17},{"age":30},{"age":45}]` is safe and scans without error. -/
theorem mongo_fail_fast_witness :
    safeQuery (.obj [("age", .obj [("$gt", .num 18)])]) = true
    ∧ ∃ v, executeMongodb
        (.arr [.obj [("age", .num 17)], .obj [("age", .num 30)], .obj [("age", .num 45)]])
        (some (.obj [("age", .obj [("$gt", .num 18)])])) = .ok v :=
  ⟨rfl, mongo_fail_fast.2
    (.arr [.obj [("age", .num 17)], .obj [("age", .num 30)], .obj [("age", .num 45)]])
    (.obj [("age", .obj [("$gt", .num 18)])]) rfl⟩

/-! ## Idempotence of the jq `unique` stage (claim C9) -/

theorem serJ_eq_none_iff : ∀ v, serJ v = none ↔ v = .und := by
  intro v
  cases v <;> simp [serJ]

theorem serElem_eq : ∀ v, serElem v = (serJ v).getD "null".data := by
  intro v
  cases v <;> rfl

theorem jnorm_ne_und : ∀ v, v ≠ .und → jnorm v ≠ .und := by
  intro v h
  cases v <;> simp [jnorm] at h ⊢

theorem jnormElem_eq : ∀ v, v ≠ .und → jnormElem v = jnorm v := by
  intro v h
  cases v <;> first | rfl | simp at h

mutual

theorem serJ_jnorm : ∀ v, serJ (jnorm v) = serJ v := by
  intro v
  cases v with
  | arr xs =>
    show serJ (.arr (jnormL xs)) = serJ (.arr xs)
    simp only [serJ, Option.some.injEq]
    rw [serArrB_jnormL xs]
  | obj fs =>
    show serJ (.obj (jnormF fs)) = serJ (.obj fs)
    simp only [serJ, Option.some.injEq]
    rw [serFields_jnormF fs]
  | null => rfl
  | und => rfl
  | nan => rfl
  | bool b => rfl
  | num n => rfl
  | str s => rfl

theorem serElem_jnormElem : ∀ v, serElem (jnormElem v) = serElem v := by
  intro v
  cases v with
  | und => rfl
  | null => rfl
  | nan => rfl
  | bool b => rfl
  | num n => rfl
  | str s => rfl
  | arr ys =>
    rw [serElem_eq, serElem_eq]
    show (serJ (jnorm (Jv.arr ys))).getD _ = _
    rw [serJ_jnorm (Jv.arr ys)]
  | obj gs =>
    rw [serElem_eq, serElem_eq]
    show (serJ (jnorm (Jv.obj gs))).getD _ = _
    rw [serJ_jnorm (Jv.obj gs)]

theorem serArrB_jnormL : ∀ xs, serArrB (jnormL xs) = serArrB xs := by
  intro xs
  cases xs with
  | nil => rfl
  | cons x rest =>
    cases rest with
    | nil =>
      show serElem (jnormElem x) = serElem x
      exact serElem_jnormElem x
    | cons y rest2 =>
      show serElem (jnormElem x) ++ ',' :: serArrB (jnormL (y :: rest2)) =
        serElem x ++ ',' :: serArrB (y :: rest2)
      rw [serElem_jnormElem x, serArrB_jnormL (y :: rest2)]

theorem serFields_jnormF : ∀ fs, serFields (jnormF fs) = serFields fs := by
  intro fs
  cases fs with
  | nil => rfl
  | cons p rest =>
    obtain ⟨k, v⟩ := p
    cases v with
    | und =>
      show serFields (jnormF rest) = serFields ((k, Jv.und) :: rest)
      rw [serFields_jnormF rest]
      rfl
    | null =>
      show _ :: serFields (jnormF rest) = _ :: serFields rest
      rw [serFields_jnormF rest]
    | nan =>
      show _ :: serFields (jnormF rest) = _ :: serFields rest
      rw [serFields_jnormF rest]
    | bool b =>
      show _ :: serFields (jnormF rest) = _ :: serFields rest
      rw [serFields_jnormF rest]
    | num n =>
      show _ :: serFields (jnormF rest) = _ :: serFields rest
      rw [serFields_jnormF rest]
    | str s =>
      show _ :: serFields (jnormF rest) = _ :: serFields rest
      rw [serFields_jnormF rest]
    | arr ys =>
      show serFields ((k, jnorm (Jv.arr ys)) :: jnormF rest) = _
      show (match serJ (jnorm (Jv.arr ys)) with
        | none => serFields (jnormF rest)
        | some sv => (serStrLit k ++ ':' :: sv) :: serFields (jnormF rest)) = _
      rw [serJ_jnorm (Jv.arr ys), serFields_jnormF rest]
      rfl
    | obj gs =>
      show serFields ((k, jnorm (Jv.obj gs)) :: jnormF rest) = _
      show (match serJ (jnorm (Jv.obj gs)) with
        | none => serFields (jnormF rest)
        | some sv => (serStrLit k ++ ':' :: sv) :: serFields (jnormF rest)) = _
      rw [serJ_jnorm (Jv.obj gs), serFields_jnormF rest]
      rfl

end

mutual

theorem jnorm_idem : ∀ v, jnorm (jnorm v) = jnorm v := by
  intro v
  cases v with
  | arr xs =>
    show Jv.arr (jnormL (jnormL xs)) = Jv.arr (jnormL xs)
    rw [jnormL_idem xs]
  | obj fs =>
    show Jv.obj (jnormF (jnormF fs)) = Jv.obj (jnormF fs)
    rw [jnormF_idem fs]
  | null => rfl
  | und => rfl
  | nan => rfl
  | bool b => rfl
  | num n => rfl
  | str s => rfl

theorem jnormElem_idem : ∀ v, jnormElem (jnormElem v) = jnormElem v := by
  intro v
  cases v with
  | und => rfl
  | null => rfl
  | nan => rfl
  | bool b => rfl
  | num n => rfl
  | str s => rfl
  | arr ys =>
    show Jv.arr (jnormL (jnormL ys)) = Jv.arr (jnormL ys)
    rw [jnormL_idem ys]
  | obj gs =>
    show Jv.obj (jnormF (jnormF gs)) = Jv.obj (jnormF gs)
    rw [jnormF_idem gs]

theorem jnormL_idem : ∀ xs, jnormL (jnormL xs) = jnormL xs := by
  intro xs
  cases xs with
  | nil => rfl
  | cons x rest =>
    show jnormElem (jnormElem x) :: jnormL (jnormL rest) = jnormElem x :: jnormL rest
    rw [jnormElem_idem x, jnormL_idem rest]

theorem jnormF_idem : ∀ fs, jnormF (jnormF fs) = jnormF fs := by
  intro fs
  cases fs with
  | nil => rfl
  | cons p rest =>
    obtain ⟨k, v⟩ := p
    cases v with
    | und => exact jnormF_idem rest
    | null =>
      show _ :: jnormF (jnormF rest) = _ :: jnormF rest
      rw [jnormF_idem rest]
    | nan =>
      show _ :: jnormF (jnormF rest) = _ :: jnormF rest
      rw [jnormF_idem rest]
      rfl
    | bool b =>
      show _ :: jnormF (jnormF rest) = _ :: jnormF rest
      rw [jnormF_idem rest]
    | num n =>
      show _ :: jnormF (jnormF rest) = _ :: jnormF rest
      rw [jnormF_idem rest]
    | str s =>
      show _ :: jnormF (jnormF rest) = _ :: jnormF rest
      rw [jnormF_idem rest]
    | arr ys =>
      show jnormF ((k, jnorm (Jv.arr ys)) :: jnormF rest) = _
      show (match jnorm (Jv.arr ys) with
        | Jv.und => jnormF (jnormF rest)
        | v => (k, jnorm v) :: jnormF (jnormF rest)) = _
      show (k, jnorm (Jv.arr (jnormL ys))) :: jnormF (jnormF rest) = _
      rw [jnormF_idem rest]
      have : jnorm (Jv.arr (jnormL ys)) = jnorm (Jv.arr ys) := by
        show Jv.arr (jnormL (jnormL ys)) = Jv.arr (jnormL ys)
        rw [jnormL_idem ys]
      rw [this]
      rfl
    | obj gs =>
      show jnormF ((k, jnorm (Jv.obj gs)) :: jnormF rest) = _
      show (match jnorm (Jv.obj gs) with
        | Jv.und => jnormF (jnormF rest)
        | v => (k, jnorm v) :: jnormF (jnormF rest)) = _
      show (k, jnorm (Jv.obj (jnormF gs))) :: jnormF (jnormF rest) = _
      rw [jnormF_idem rest]
      have : jnorm (Jv.obj (jnormF gs)) = jnorm (Jv.obj gs) := by
        show Jv.obj (jnormF (jnormF gs)) = Jv.obj (jnormF gs)
        rw [jnormF_idem gs]
      rw [this]
      rfl

end

theorem uniqueGo_spec : ∀ (xs : List Jv) (seen : List (List Char)),
    (∀ y ∈ uniqueGo xs seen, (∃ x ∈ xs, y = jnorm x) ∧ (serJ y).getD [] ∉ seen)
    ∧ ((uniqueGo xs seen).map (fun y => (serJ y).getD [])).Nodup := by
  intro xs
  induction xs with
  | nil => exact fun seen => ⟨by simp [uniqueGo], by simp [uniqueGo]⟩
  | cons x rest ih =>
    intro seen
    by_cases hmem : seen.contains ((serJ x).getD [])
    · have hgo : uniqueGo (x :: rest) seen = uniqueGo rest seen := by
        simp only [uniqueGo, hmem]
        rfl
      rw [hgo]
      refine ⟨fun y hy => ⟨?_, ((ih seen).1 y hy).2⟩, (ih seen).2⟩
      obtain ⟨x2, hx2, he⟩ := ((ih seen).1 y hy).1
      exact ⟨x2, by simp [hx2], he⟩
    · have hgo : uniqueGo (x :: rest) seen =
          jnorm x :: uniqueGo rest (((serJ x).getD []) :: seen) := by
        simp only [uniqueGo, hmem]
        rfl
      rw [hgo]
      have hkey : (serJ (jnorm x)).getD [] = (serJ x).getD [] := by rw [serJ_jnorm]
      have hnotin : (serJ x).getD [] ∉ seen := by
        intro hc
        exact hmem (List.elem_iff.mpr hc)
      refine ⟨?_, ?_⟩
      · intro y hy
        rcases List.mem_cons.mp hy with h1 | h1
        · subst h1
          exact ⟨⟨x, by simp, rfl⟩, by rw [hkey]; exact hnotin⟩
        · obtain ⟨⟨x2, hx2, he⟩, hnot⟩ := (ih _).1 y h1
          refine ⟨⟨x2, by simp [hx2], he⟩, ?_⟩
          intro hc
          exact hnot (by simp [hc])
      · simp only [List.map_cons, List.nodup_cons]
        refine ⟨?_, (ih _).2⟩
        intro hc
        rw [hkey] at hc
        obtain ⟨y, hy, he⟩ := List.mem_map.mp hc
        have := ((ih _).1 y hy).2
        rw [he] at this
        exact this (by simp)

theorem uniqueGo_fixed : ∀ (ys : List Jv) (seen : List (List Char)),
    (∀ y ∈ ys, jnorm y = y) →
    ((ys.map (fun y => (serJ y).getD [])).Nodup) →
    (∀ y ∈ ys, (serJ y).getD [] ∉ seen) →
    uniqueGo ys seen = ys := by
  intro ys
  induction ys with
  | nil => intro seen _ _ _; rfl
  | cons y rest ih =>
    intro seen hfix hnd hdisj
    have hmem : seen.contains ((serJ y).getD []) = false := by
      rw [Bool.eq_false_iff]
      intro hc
      exact hdisj y (by simp) (List.elem_iff.mp hc)
    simp only [uniqueGo, hmem]
    rw [if_neg (by simp)]
    rw [hfix y (by simp)]
    congr 1
    simp only [List.map_cons, List.nodup_cons] at hnd
    apply ih
    · exact fun z hz => hfix z (by simp [hz])
    · exact hnd.2
    · intro z hz hc
      rcases List.mem_cons.mp hc with h1 | h1
      · exact hnd.1 (h1 ▸ List.mem_map.mpr ⟨z, hz, rfl⟩)
      · exact hdisj z (by simp [hz]) h1

/-- Claim C9. The jq `unique` stage is idempotent: whenever it succeeds
(it throws only when some element is `undefined`, a value outside the
specification's Value model), running it again on its result returns that
result unchanged. -/
theorem unique_idempotent (xs ys : List Jv) (h : uniqueJq xs = .ok ys) :
    uniqueJq ys = .ok ys := by
  have hund : xs.any (fun x => jvBeq x .und) = false := by
    by_contra hc
    rw [Bool.not_eq_false] at hc
    simp [uniqueJq, hc] at h
  have hys : ys = uniqueGo xs [] := by
    simp [uniqueJq, hund] at h
    exact h.symm
  have hxund : ∀ x ∈ xs, x ≠ .und := by
    intro x hx he
    have := List.any_eq_false.mp hund x hx
    rw [he] at this
    simp [jvBeq] at this
  have helems : ∀ y ∈ ys, ∃ x ∈ xs, y = jnorm x := by
    intro y hy
    exact ((uniqueGo_spec xs []).1 y (hys ▸ hy)).1
  have hysund : ys.any (fun x => jvBeq x .und) = false := by
    rw [List.any_eq_false]
    intro y hy
    obtain ⟨x, hx, he⟩ := helems y hy
    have h1 : jnorm x ≠ .und := jnorm_ne_und x (hxund x hx)
    rw [he]
    intro hc
    exact h1 (jvBeq_eq _ _ hc)
  have hfix : ∀ y ∈ ys, jnorm y = y := by
    intro y hy
    obtain ⟨x, hx, he⟩ := helems y hy
    rw [he, jnorm_idem]
  have hnd : ((ys.map (fun y => (serJ y).getD [])).Nodup) := by
    rw [hys]
    exact (uniqueGo_spec xs []).2
  simp only [uniqueJq, hysund]
  rw [if_neg (by simp)]
  rw [uniqueGo_fixed ys [] hfix hnd (by simp)]

/-- Witness for C9 at `[1, "1", 1]`: the first pass keeps `[1, "1"]`
(number and string serialize differently), and the theorem gives the second
pass. -/
theorem unique_idempotent_witness :
    uniqueJq [.num 1, .str "1", .num 1] = .ok [.num 1, .str "1"]
    ∧ uniqueJq [.num 1, .str "1"] = .ok [.num 1, .str "1"] :=
  ⟨rfl, unique_idempotent [.num 1, .str "1", .num 1] [.num 1, .str "1"] rfl⟩

/-! ## First-occurrence order of `unique` (claim C10): serializer injectivity -/

theorem charToNat_inj : ∀ a b : Char, a.toNat = b.toNat → a = b := by
  intro a b h
  have h2 := congrArg Char.ofNat h
  rwa [Char.ofNat_toNat, Char.ofNat_toNat] at h2

theorem digitCh_isDigit (d : Nat) (h : d ≤ 9) : (digitCh d).isDigit = true := by
  interval_cases d <;> decide

theorem digitCh_toNat (d : Nat) (h : d ≤ 9) : (digitCh d).toNat = 48 + d := by
  interval_cases d <;> decide

theorem digitsVal_concat (l : List Char) (c : Char) :
    digitsVal (l ++ [c]) = 10 * digitsVal l + (c.toNat - 48) := by
  simp only [digitsVal, List.foldl_append, List.foldl_cons, List.foldl_nil]
  omega

theorem digitsAux_spec : ∀ fuel n, n < fuel →
    digitsVal (digitsAux fuel n) = n ∧ digitsAux fuel n ≠ [] ∧
      ∀ c ∈ digitsAux fuel n, c.isDigit = true := by
  intro fuel
  induction fuel with
  | zero => intro n h; omega
  | succ f ih =>
    intro n hn
    by_cases h10 : n < 10
    · have he : digitsAux (f + 1) n = [digitCh n] := by
        simp [digitsAux, h10]
      rw [he]
      refine ⟨?_, by simp, ?_⟩
      · simp [digitsVal, digitCh_toNat n (by omega)]
      · intro c hc
        simp at hc
        rw [hc]
        exact digitCh_isDigit n (by omega)
    · have he : digitsAux (f + 1) n = digitsAux f (n / 10) ++ [digitCh (n % 10)] := by
        simp [digitsAux, h10]
      have hdiv : n / 10 < f := by
        have h1 : n / 10 < n := Nat.div_lt_self (by omega) (by omega)
        omega
      obtain ⟨hv, hne, hd⟩ := ih (n / 10) hdiv
      rw [he]
      refine ⟨?_, by simp, ?_⟩
      · rw [digitsVal_concat, hv, digitCh_toNat (n % 10) (by omega)]
        omega
      · intro c hc
        rcases List.mem_append.mp hc with h1 | h1
        · exact hd c h1
        · simp at h1
          rw [h1]
          exact digitCh_isDigit (n % 10) (by omega)

theorem natDigits_spec (n : Nat) :
    digitsVal (natDigits n) = n ∧ natDigits n ≠ [] ∧ ∀ c ∈ natDigits n, c.isDigit = true :=
  digitsAux_spec (n + 1) n (by omega)

theorem digits_unamb : ∀ (d1 : List Char) (d2 : List Char) (s t : List Char),
    (∀ c ∈ d1, c.isDigit = true) → (∀ c ∈ d2, c.isDigit = true) →
    d1 ≠ [] → d2 ≠ [] →
    (∀ c, s.head? = some c → c.isDigit = false) →
    (∀ c, t.head? = some c → c.isDigit = false) →
    d1 ++ s = d2 ++ t → d1 = d2 ∧ s = t := by
  intro d1
  induction d1 with
  | nil => intro d2 s t _ _ h1 _ _ _ _; exact absurd rfl h1
  | cons c1 r1 ih =>
    intro d2 s t hda hdb _ hne2 hs ht he
    cases d2 with
    | nil => exact absurd rfl hne2
    | cons c2 r2 =>
      simp only [List.cons_append, List.cons.injEq] at he
      obtain ⟨hc, hrest⟩ := he
      subst hc
      cases r1 with
      | nil =>
        cases r2 with
        | nil => exact ⟨rfl, by simpa using hrest⟩
        | cons c3 r3 =>
          exfalso
          simp only [List.nil_append, List.cons_append] at hrest
          have : s.head? = some c3 := by rw [hrest]; rfl
          have h1 := hs c3 this
          have h2 := hdb c3 (by simp)
          rw [h1] at h2
          exact Bool.false_ne_true h2
      | cons c3 r3 =>
        cases r2 with
        | nil =>
          exfalso
          simp only [List.nil_append, List.cons_append] at hrest
          have : t.head? = some c3 := by rw [← hrest]; rfl
          have h1 := ht c3 this
          have h2 := hda c3 (by simp)
          rw [h1] at h2
          exact Bool.false_ne_true h2
        | cons c4 r4 =>
          have := ih (c4 :: r4) s t (fun c hc => hda c (by simp [hc]))
            (fun c hc => hdb c (by simp [hc])) (by simp) (by simp) hs ht hrest
          exact ⟨by rw [this.1], this.2⟩

theorem natDigits_inj (m n : Nat) (h : natDigits m = natDigits n) : m = n := by
  have h1 := (natDigits_spec m).1
  have h2 := (natDigits_spec n).1
  rw [← h1, ← h2, h]

theorem serInt_unamb (m n : Int) (s t : List Char)
    (hs : ∀ c, s.head? = some c → c.isDigit = false)
    (ht : ∀ c, t.head? = some c → c.isDigit = false)
    (he : serInt m ++ s = serInt n ++ t) : m = n ∧ s = t := by
  unfold serInt at he
  by_cases hm : m < 0 <;> by_cases hn : n < 0
  · rw [if_pos hm, if_pos hn] at he
    simp only [List.cons_append, List.cons.injEq, true_and] at he
    obtain ⟨hd, hst⟩ := digits_unamb (natDigits (-m).toNat) (natDigits (-n).toNat) s t
      (natDigits_spec _).2.2 (natDigits_spec _).2.2 (natDigits_spec _).2.1 (natDigits_spec _).2.1
      hs ht he
    have := natDigits_inj _ _ hd
    exact ⟨by omega, hst⟩
  · exfalso
    rw [if_pos hm, if_neg hn] at he
    obtain ⟨hv, hne, hd⟩ := natDigits_spec n.toNat
    cases hx : natDigits n.toNat with
    | nil => exact hne hx
    | cons c r =>
      rw [hx] at he
      simp only [List.cons_append, List.cons.injEq] at he
      have h1 := hd c (by rw [hx]; simp)
      rw [← he.1] at h1
      simp at h1
  · exfalso
    rw [if_neg hm, if_pos hn] at he
    obtain ⟨hv, hne, hd⟩ := natDigits_spec m.toNat
    cases hx : natDigits m.toNat with
    | nil => exact hne hx
    | cons c r =>
      rw [hx] at he
      simp only [List.cons_append, List.cons.injEq] at he
      have h1 := hd c (by rw [hx]; simp)
      rw [he.1] at h1
      simp at h1
  · rw [if_neg hm, if_neg hn] at he
    obtain ⟨hd, hst⟩ := digits_unamb (natDigits m.toNat) (natDigits n.toNat) s t
      (natDigits_spec _).2.2 (natDigits_spec _).2.2 (natDigits_spec _).2.1 (natDigits_spec _).2.1
      hs ht he
    have := natDigits_inj _ _ hd
    exact ⟨by omega, hst⟩

theorem hexDigitCh_inj : ∀ a b : Nat, a < 16 → b < 16 → hexDigitCh a = hexDigitCh b → a = b := by
  intro a b ha hb
  interval_cases a <;> interval_cases b <;> decide

theorem escapeChar_head_ne_dq : ∀ c, ∃ h rest, escapeChar c = h :: rest ∧ h ≠ dquoteCh := by
  intro c
  unfold escapeChar
  split_ifs with h1 h2 h3 h4 h5 h6 h7 h8
  · exact ⟨_, _, rfl, by decide⟩
  · exact ⟨_, _, rfl, by decide⟩
  · exact ⟨_, _, rfl, by decide⟩
  · exact ⟨_, _, rfl, by decide⟩
  · exact ⟨_, _, rfl, by decide⟩
  · exact ⟨_, _, rfl, by decide⟩
  · exact ⟨_, _, rfl, by decide⟩
  · exact ⟨_, _, rfl, by decide⟩
  · refine ⟨c, [], rfl, ?_⟩
    intro hc
    rw [hc] at h1
    simp at h1

theorem escapeChar_shape : ∀ c,
    (escapeChar c = [c] ∧ c ≠ backslashCh)
    ∨ (∃ x, escapeChar c = [backslashCh, x] ∧ x ≠ 'u' ∧ c = escDecode x)
    ∨ (escapeChar c = [backslashCh, 'u', '0', '0',
        hexDigitCh (c.toNat / 16), hexDigitCh (c.toNat % 16)] ∧ c.toNat < 32) := by
  intro c
  unfold escapeChar
  split_ifs with h1 h2 h3 h4 h5 h6 h7 h8
  · exact Or.inr (Or.inl ⟨dquoteCh, rfl, by decide, by rw [beq_iff_eq.mp h1]; decide⟩)
  · exact Or.inr (Or.inl ⟨backslashCh, rfl, by decide, by rw [beq_iff_eq.mp h2]; decide⟩)
  · exact Or.inr (Or.inl ⟨'n', rfl, by decide, by rw [beq_iff_eq.mp h3]; decide⟩)
  · exact Or.inr (Or.inl ⟨'r', rfl, by decide, by rw [beq_iff_eq.mp h4]; decide⟩)
  · exact Or.inr (Or.inl ⟨'t', rfl, by decide, by rw [beq_iff_eq.mp h5]; decide⟩)
  · exact Or.inr (Or.inl ⟨'b', rfl, by decide, by rw [beq_iff_eq.mp h6]; decide⟩)
  · exact Or.inr (Or.inl ⟨'f', rfl, by decide, by rw [beq_iff_eq.mp h7]; decide⟩)
  · exact Or.inr (Or.inr ⟨rfl, h8⟩)
  · refine Or.inl ⟨rfl, ?_⟩
    intro hc
    rw [hc] at h2
    simp at h2

theorem escapeChar_unamb : ∀ c d u v,
    escapeChar c ++ u = escapeChar d ++ v → c = d ∧ u = v := by
  intro c d u v he
  rcases escapeChar_shape c with ⟨hc, hcb⟩ | ⟨x, hc, hxu, hxd⟩ | ⟨hc, hc32⟩ <;>
    rcases escapeChar_shape d with ⟨hd, hdb⟩ | ⟨y, hd, hyu, hyd⟩ | ⟨hd, hd32⟩ <;>
    rw [hc, hd] at he <;> simp only [List.cons_append, List.nil_append, List.cons.injEq] at he
  · exact ⟨he.1, he.2⟩
  · exact absurd he.1 hcb
  · exact absurd he.1 hcb
  · exact absurd he.1.symm hdb
  · obtain ⟨-, e2⟩ := he
    exact ⟨by rw [hxd, hyd, e2.1], e2.2⟩
  · exact absurd he.2.1 hxu
  · exact absurd he.1.symm hdb
  · exact absurd he.2.1.symm hyu
  · obtain ⟨-, -, -, -, e1, e2, e3⟩ := he
    have h1 : c.toNat / 16 = d.toNat / 16 :=
      hexDigitCh_inj _ _ (by omega) (by omega) e1
    have h2 : c.toNat % 16 = d.toNat % 16 :=
      hexDigitCh_inj _ _ (by omega) (by omega) e2
    exact ⟨charToNat_inj c d (by omega), e3⟩

theorem escStr_unamb : ∀ (a : List Char) (b : List Char) (s t : List Char),
    escStr a ++ dquoteCh :: s = escStr b ++ dquoteCh :: t → a = b ∧ s = t := by
  intro a
  induction a with
  | nil =>
    intro b s t he
    cases b with
    | nil => exact ⟨rfl, by simpa using he⟩
    | cons d b2 =>
      exfalso
      obtain ⟨h, rest, hesc, hne⟩ := escapeChar_head_ne_dq d
      simp only [escStr, List.nil_append] at he
      rw [hesc] at he
      simp only [List.cons_append, List.append_assoc, List.cons.injEq] at he
      exact hne he.1.symm
  | cons c a2 ih =>
    intro b s t he
    cases b with
    | nil =>
      exfalso
      obtain ⟨h, rest, hesc, hne⟩ := escapeChar_head_ne_dq c
      simp only [escStr, List.nil_append] at he
      rw [hesc] at he
      simp only [List.cons_append, List.append_assoc, List.cons.injEq] at he
      exact hne he.1
    | cons d b2 =>
      simp only [escStr, List.append_assoc] at he
      obtain ⟨hcd, hrest⟩ := escapeChar_unamb c d _ _ he
      obtain ⟨hab, hst⟩ := ih b2 s t hrest
      exact ⟨by rw [hcd, hab], hst⟩

theorem serJ_of_NF : ∀ v, jvNF v = true → serJ v = some (serElem v) := by
  intro v hv
  cases v with
  | und => exact absurd hv (by decide)
  | nan => exact absurd hv (by decide)
  | null => rfl
  | bool b => rfl
  | num n => rfl
  | str s => rfl
  | arr xs => rfl
  | obj fs => rfl

theorem serElem_null : serElem Jv.null = 'n' :: "ull".data := rfl

theorem serElem_true : serElem (Jv.bool true) = 't' :: "rue".data := rfl

theorem serElem_false : serElem (Jv.bool false) = 'f' :: "alse".data := rfl

theorem serElem_num (n : Int) : serElem (Jv.num n) = serInt n := rfl

theorem serElem_str (s : String) :
    serElem (Jv.str s) = dquoteCh :: (escStr s.data ++ [dquoteCh]) := rfl

theorem serElem_arr (xs : List Jv) :
    serElem (Jv.arr xs) = '[' :: (serArrB xs ++ [']']) := rfl

theorem serElem_obj (fs : List (String × Jv)) :
    serElem (Jv.obj fs) = lbrace :: (joinComma (serFields fs) ++ [rbrace]) := rfl

theorem serInt_head : ∀ n : Int, ∃ c r, serInt n = c :: r ∧ (c.isDigit = true ∨ c = '-') := by
  intro n
  unfold serInt
  by_cases hn : n < 0
  · rw [if_pos hn]
    exact ⟨'-', _, rfl, Or.inr rfl⟩
  · rw [if_neg hn]
    obtain ⟨hv, hne, hd⟩ := natDigits_spec n.toNat
    cases hx : natDigits n.toNat with
    | nil => exact absurd hx hne
    | cons c r => exact ⟨c, r, rfl, Or.inl (hd c (by rw [hx]; simp))⟩

theorem numHead_ne (c : Char) (hcd : c.isDigit = true ∨ c = '-')
    (hn : c = 'n' ∨ c = 't' ∨ c = 'f' ∨ c = dquoteCh ∨ c = '[' ∨ c = lbrace) : False := by
  rcases hn with h | h | h | h | h | h <;> subst h <;>
    rcases hcd with h2 | h2 <;> exact absurd h2 (by decide)

theorem head_cons_nondigit (a : Char) (ha : a.isDigit = false) (l : List Char) :
    ∀ c, (a :: l).head? = some c → c.isDigit = false := by
  intro c hc
  rw [List.head?_cons] at hc
  injection hc with h
  rw [← h]
  exact ha

theorem serElem_head_shape : ∀ v, jvNF v = true →
    ∃ c r, serElem v = c :: r ∧ c ≠ ']' ∧ c ≠ rbrace ∧ c ≠ ',' := by
  intro v hv
  cases v with
  | und => exact absurd hv (by decide)
  | nan => exact absurd hv (by decide)
  | null => exact ⟨'n', _, serElem_null, by decide, by decide, by decide⟩
  | bool b =>
    cases b with
    | true => exact ⟨'t', _, serElem_true, by decide, by decide, by decide⟩
    | false => exact ⟨'f', _, serElem_false, by decide, by decide, by decide⟩
  | num n =>
    obtain ⟨c, r, hc, hcd⟩ := serInt_head n
    refine ⟨c, r, by rw [serElem_num, hc], ?_, ?_, ?_⟩ <;>
      intro hcc <;> subst hcc <;> rcases hcd with h2 | h2 <;> exact absurd h2 (by decide)
  | str s => exact ⟨dquoteCh, _, serElem_str s, by decide, by decide, by decide⟩
  | arr xs => exact ⟨'[', _, serElem_arr xs, by decide, by decide, by decide⟩
  | obj fs => exact ⟨lbrace, _, serElem_obj fs, by decide, by decide, by decide⟩

theorem serFields_cons_NF (k : String) (v : Jv) (rest : List (String × Jv))
    (h : jvNF v = true) :
    serFields ((k, v) :: rest) = (serStrLit k ++ ':' :: serElem v) :: serFields rest := by
  show (match serJ v with
    | none => serFields rest
    | some sv => (serStrLit k ++ ':' :: sv) :: serFields rest) = _
  rw [serJ_of_NF v h]

theorem serFields_nil_NF : ∀ fs, jvNFF fs = true → serFields fs = [] → fs = [] := by
  intro fs h hser
  cases fs with
  | nil => rfl
  | cons p rest =>
    obtain ⟨k, v⟩ := p
    have h2 : (jvNF v && jvNFF rest) = true := h
    simp only [Bool.and_eq_true] at h2
    rw [serFields_cons_NF k v rest h2.1] at hser
    exact absurd hser (by simp)

theorem joinComma_cases : ∀ (p : List Char) (ps : List (List Char)),
    (ps = [] ∧ joinComma (p :: ps) = p) ∨
    (∃ q qs, ps = q :: qs ∧ joinComma (p :: ps) = p ++ ',' :: joinComma (q :: qs)) := by
  intro p ps
  cases ps with
  | nil => exact Or.inl ⟨rfl, rfl⟩
  | cons q qs => exact Or.inr ⟨q, qs, rfl, rfl⟩

mutual

theorem serUnambV : ∀ v w, jvNF v = true → jvNF w = true → ∀ s t : List Char,
    (∀ c, s.head? = some c → c.isDigit = false) →
    (∀ c, t.head? = some c → c.isDigit = false) →
    serElem v ++ s = serElem w ++ t → v = w ∧ s = t := by
  intro v w hv hw s t hs ht he
  cases v with
  | und => exact absurd hv (by decide)
  | nan => exact absurd hv (by decide)
  | null =>
    cases w with
    | und => exact absurd hw (by decide)
    | nan => exact absurd hw (by decide)
    | null => exact ⟨rfl, List.append_cancel_left he⟩
    | bool b =>
      cases b with
      | true =>
        injection he with h1 h2
        exact absurd h1 (by decide)
      | false =>
        injection he with h1 h2
        exact absurd h1 (by decide)
    | num n =>
      obtain ⟨c, r, hc, hcd⟩ := serInt_head n
      rw [serElem_num, hc] at he
      injection he with h1 h2
      exact absurd (numHead_ne c hcd (Or.inl h1.symm)) id
    | str s2 =>
      injection he with h1 h2
      exact absurd h1 (by decide)
    | arr ys =>
      injection he with h1 h2
      exact absurd h1 (by decide)
    | obj gs =>
      injection he with h1 h2
      exact absurd h1 (by decide)
  | bool b1 =>
    cases w with
    | und => exact absurd hw (by decide)
    | nan => exact absurd hw (by decide)
    | null =>
      cases b1 with
      | true =>
        injection he with h1 h2
        exact absurd h1 (by decide)
      | false =>
        injection he with h1 h2
        exact absurd h1 (by decide)
    | bool b2 =>
      cases b1 with
      | true =>
        cases b2 with
        | true => exact ⟨rfl, List.append_cancel_left he⟩
        | false =>
          injection he with h1 h2
          exact absurd h1 (by decide)
      | false =>
        cases b2 with
        | true =>
          injection he with h1 h2
          exact absurd h1 (by decide)
        | false => exact ⟨rfl, List.append_cancel_left he⟩
    | num n =>
      obtain ⟨c, r, hc, hcd⟩ := serInt_head n
      rw [serElem_num, hc] at he
      cases b1 with
      | true =>
        injection he with h1 h2
        exact absurd (numHead_ne c hcd (Or.inr (Or.inl h1.symm))) id
      | false =>
        injection he with h1 h2
        exact absurd (numHead_ne c hcd (Or.inr (Or.inr (Or.inl h1.symm)))) id
    | str s2 =>
      cases b1 with
      | true =>
        injection he with h1 h2
        exact absurd h1 (by decide)
      | false =>
        injection he with h1 h2
        exact absurd h1 (by decide)
    | arr ys =>
      cases b1 with
      | true =>
        injection he with h1 h2
        exact absurd h1 (by decide)
      | false =>
        injection he with h1 h2
        exact absurd h1 (by decide)
    | obj gs =>
      cases b1 with
      | true =>
        injection he with h1 h2
        exact absurd h1 (by decide)
      | false =>
        injection he with h1 h2
        exact absurd h1 (by decide)
  | num m =>
    cases w with
    | und => exact absurd hw (by decide)
    | nan => exact absurd hw (by decide)
    | null =>
      obtain ⟨c, r, hc, hcd⟩ := serInt_head m
      rw [serElem_num, hc] at he
      injection he with h1 h2
      exact absurd (numHead_ne c hcd (Or.inl h1)) id
    | bool b2 =>
      obtain ⟨c, r, hc, hcd⟩ := serInt_head m
      rw [serElem_num, hc] at he
      cases b2 with
      | true =>
        injection he with h1 h2
        exact absurd (numHead_ne c hcd (Or.inr (Or.inl h1))) id
      | false =>
        injection he with h1 h2
        exact absurd (numHead_ne c hcd (Or.inr (Or.inr (Or.inl h1)))) id
    | num n =>
      simp only [serElem_num] at he
      obtain ⟨hmn, hst⟩ := serInt_unamb m n s t hs ht he
      exact ⟨by rw [hmn], hst⟩
    | str s2 =>
      obtain ⟨c, r, hc, hcd⟩ := serInt_head m
      rw [serElem_num, hc] at he
      injection he with h1 h2
      exact absurd (numHead_ne c hcd (Or.inr (Or.inr (Or.inr (Or.inl h1))))) id
    | arr ys =>
      obtain ⟨c, r, hc, hcd⟩ := serInt_head m
      rw [serElem_num, hc] at he
      injection he with h1 h2
      exact absurd (numHead_ne c hcd (Or.inr (Or.inr (Or.inr (Or.inr (Or.inl h1)))))) id
    | obj gs =>
      obtain ⟨c, r, hc, hcd⟩ := serInt_head m
      rw [serElem_num, hc] at he
      injection he with h1 h2
      exact absurd (numHead_ne c hcd (Or.inr (Or.inr (Or.inr (Or.inr (Or.inr h1)))))) id
  | str a =>
    cases w with
    | und => exact absurd hw (by decide)
    | nan => exact absurd hw (by decide)
    | null =>
      injection he with h1 h2
      exact absurd h1 (by decide)
    | bool b2 =>
      cases b2 with
      | true =>
        injection he with h1 h2
        exact absurd h1 (by decide)
      | false =>
        injection he with h1 h2
        exact absurd h1 (by decide)
    | num n =>
      obtain ⟨c, r, hc, hcd⟩ := serInt_head n
      rw [serElem_num, hc] at he
      injection he with h1 h2
      exact absurd (numHead_ne c hcd (Or.inr (Or.inr (Or.inr (Or.inl h1.symm))))) id
    | str b =>
      simp only [serElem_str, List.cons_append, List.append_assoc, List.singleton_append] at he
      injection he with h1 h2
      obtain ⟨hab, hst⟩ := escStr_unamb a.data b.data s t h2
      have hab2 : a = b := by
        have h3 := congrArg String.mk hab
        rwa [stringMk_data, stringMk_data] at h3
      exact ⟨by rw [hab2], hst⟩
    | arr ys =>
      injection he with h1 h2
      exact absurd h1 (by decide)
    | obj gs =>
      injection he with h1 h2
      exact absurd h1 (by decide)
  | arr xs =>
    cases w with
    | und => exact absurd hw (by decide)
    | nan => exact absurd hw (by decide)
    | null =>
      injection he with h1 h2
      exact absurd h1 (by decide)
    | bool b2 =>
      cases b2 with
      | true =>
        injection he with h1 h2
        exact absurd h1 (by decide)
      | false =>
        injection he with h1 h2
        exact absurd h1 (by decide)
    | num n =>
      obtain ⟨c, r, hc, hcd⟩ := serInt_head n
      rw [serElem_num, hc] at he
      injection he with h1 h2
      exact absurd (numHead_ne c hcd (Or.inr (Or.inr (Or.inr (Or.inr (Or.inl h1.symm)))))) id
    | str b =>
      injection he with h1 h2
      exact absurd h1 (by decide)
    | arr ys =>
      simp only [serElem_arr, List.cons_append, List.append_assoc, List.singleton_append] at he
      injection he with h1 h2
      obtain ⟨hxy, hst⟩ := serUnambL xs ys hv hw s t h2
      exact ⟨by rw [hxy], hst⟩
    | obj gs =>
      injection he with h1 h2
      exact absurd h1 (by decide)
  | obj fs =>
    cases w with
    | und => exact absurd hw (by decide)
    | nan => exact absurd hw (by decide)
    | null =>
      injection he with h1 h2
      exact absurd h1 (by decide)
    | bool b2 =>
      cases b2 with
      | true =>
        injection he with h1 h2
        exact absurd h1 (by decide)
      | false =>
        injection he with h1 h2
        exact absurd h1 (by decide)
    | num n =>
      obtain ⟨c, r, hc, hcd⟩ := serInt_head n
      rw [serElem_num, hc] at he
      injection he with h1 h2
      exact absurd (numHead_ne c hcd (Or.inr (Or.inr (Or.inr (Or.inr (Or.inr h1.symm)))))) id
    | str b =>
      injection he with h1 h2
      exact absurd h1 (by decide)
    | arr ys =>
      injection he with h1 h2
      exact absurd h1 (by decide)
    | obj gs =>
      simp only [serElem_obj, List.cons_append, List.append_assoc, List.singleton_append] at he
      injection he with h1 h2
      obtain ⟨hfg, hst⟩ := serUnambF fs gs hv hw s t h2
      exact ⟨by rw [hfg], hst⟩

theorem serUnambL : ∀ xs ys, jvNFL xs = true → jvNFL ys = true → ∀ s t : List Char,
    serArrB xs ++ ']' :: s = serArrB ys ++ ']' :: t → xs = ys ∧ s = t := by
  intro xs ys hxs hys s t he
  cases xs with
  | nil =>
    cases ys with
    | nil =>
      have he2 : (']' :: s : List Char) = ']' :: t := he
      injection he2 with h1 h2
      exact ⟨rfl, h2⟩
    | cons y ys2 =>
      exfalso
      have h2 : (jvNF y && jvNFL ys2) = true := hys
      simp only [Bool.and_eq_true] at h2
      obtain ⟨c, r, hc, hne1, hne2, hne3⟩ := serElem_head_shape y h2.1
      cases ys2 with
      | nil =>
        have he2 : (']' :: s : List Char) = serElem y ++ ']' :: t := he
        rw [hc] at he2
        injection he2 with h3 h4
        exact hne1 h3.symm
      | cons y2 r2 =>
        have he2 : (']' :: s : List Char) = (serElem y ++ ',' :: serArrB (y2 :: r2)) ++ ']' :: t := he
        rw [hc] at he2
        simp only [List.cons_append, List.append_assoc] at he2
        injection he2 with h3 h4
        exact hne1 h3.symm
  | cons x xs2 =>
    have h1 : (jvNF x && jvNFL xs2) = true := hxs
    simp only [Bool.and_eq_true] at h1
    cases ys with
    | nil =>
      exfalso
      obtain ⟨c, r, hc, hne1, hne2, hne3⟩ := serElem_head_shape x h1.1
      cases xs2 with
      | nil =>
        have he2 : serElem x ++ ']' :: s = (']' :: t : List Char) := he
        rw [hc] at he2
        injection he2 with h3 h4
        exact hne1 h3
      | cons x2 r1 =>
        have he2 : (serElem x ++ ',' :: serArrB (x2 :: r1)) ++ ']' :: s = (']' :: t : List Char) := he
        rw [hc] at he2
        simp only [List.cons_append, List.append_assoc] at he2
        injection he2 with h3 h4
        exact hne1 h3
    | cons y ys2 =>
      have h2 : (jvNF y && jvNFL ys2) = true := hys
      simp only [Bool.and_eq_true] at h2
      cases xs2 with
      | nil =>
        cases ys2 with
        | nil =>
          have he2 : serElem x ++ ']' :: s = serElem y ++ ']' :: t := he
          obtain ⟨hxy, hst⟩ := serUnambV x y h1.1 h2.1 (']' :: s) (']' :: t)
            (head_cons_nondigit ']' (by decide) s) (head_cons_nondigit ']' (by decide) t) he2
          injection hst with h3 h4
          exact ⟨by rw [hxy], h4⟩
        | cons y2 r2 =>
          exfalso
          have he2 : serElem x ++ ']' :: s =
              serElem y ++ ',' :: (serArrB (y2 :: r2) ++ ']' :: t) := by
            have h3 : serElem x ++ ']' :: s = (serElem y ++ ',' :: serArrB (y2 :: r2)) ++ ']' :: t := he
            simp only [List.cons_append, List.append_assoc] at h3
            exact h3
          obtain ⟨hxy, hst⟩ := serUnambV x y h1.1 h2.1 (']' :: s) (',' :: (serArrB (y2 :: r2) ++ ']' :: t))
            (head_cons_nondigit ']' (by decide) s)
            (head_cons_nondigit ',' (by decide) (serArrB (y2 :: r2) ++ ']' :: t)) he2
          injection hst with h3 h4
          exact absurd h3 (by decide)
      | cons x2 r1 =>
        cases ys2 with
        | nil =>
          exfalso
          have he2 : serElem x ++ ',' :: (serArrB (x2 :: r1) ++ ']' :: s) =
              serElem y ++ ']' :: t := by
            have h3 : (serElem x ++ ',' :: serArrB (x2 :: r1)) ++ ']' :: s = serElem y ++ ']' :: t := he
            simp only [List.cons_append, List.append_assoc] at h3
            exact h3
          obtain ⟨hxy, hst⟩ := serUnambV x y h1.1 h2.1 (',' :: (serArrB (x2 :: r1) ++ ']' :: s)) (']' :: t)
            (head_cons_nondigit ',' (by decide) (serArrB (x2 :: r1) ++ ']' :: s))
            (head_cons_nondigit ']' (by decide) t) he2
          injection hst with h3 h4
          exact absurd h3 (by decide)
        | cons y2 r2 =>
          have he2 : serElem x ++ ',' :: (serArrB (x2 :: r1) ++ ']' :: s) =
              serElem y ++ ',' :: (serArrB (y2 :: r2) ++ ']' :: t) := by
            have h3 : (serElem x ++ ',' :: serArrB (x2 :: r1)) ++ ']' :: s =
                (serElem y ++ ',' :: serArrB (y2 :: r2)) ++ ']' :: t := he
            simp only [List.cons_append, List.append_assoc] at h3
            exact h3
          obtain ⟨hxy, hst⟩ := serUnambV x y h1.1 h2.1
            (',' :: (serArrB (x2 :: r1) ++ ']' :: s)) (',' :: (serArrB (y2 :: r2) ++ ']' :: t))
            (head_cons_nondigit ',' (by decide) (serArrB (x2 :: r1) ++ ']' :: s))
            (head_cons_nondigit ',' (by decide) (serArrB (y2 :: r2) ++ ']' :: t)) he2
          injection hst with h3 h4
          obtain ⟨hxy2, hst2⟩ := serUnambL (x2 :: r1) (y2 :: r2) h1.2 h2.2 s t h4
          exact ⟨by rw [hxy, hxy2], hst2⟩

theorem serUnambF : ∀ fs gs, jvNFF fs = true → jvNFF gs = true → ∀ s t : List Char,
    joinComma (serFields fs) ++ rbrace :: s = joinComma (serFields gs) ++ rbrace :: t →
    fs = gs ∧ s = t := by
  intro fs gs hfs hgs s t he
  cases fs with
  | nil =>
    cases gs with
    | nil =>
      have he2 : (rbrace :: s : List Char) = rbrace :: t := he
      injection he2 with h1 h2
      exact ⟨rfl, h2⟩
    | cons p gs2 =>
      exfalso
      obtain ⟨k, v⟩ := p
      have h2 : (jvNF v && jvNFF gs2) = true := hgs
      simp only [Bool.and_eq_true] at h2
      have he2 : (rbrace :: s : List Char) =
          joinComma (serFields ((k, v) :: gs2)) ++ rbrace :: t := he
      rw [serFields_cons_NF k v gs2 h2.1] at he2
      rcases joinComma_cases (serStrLit k ++ ':' :: serElem v) (serFields gs2) with
        ⟨-, hjc⟩ | ⟨q, qs, -, hjc⟩ <;>
      · rw [hjc] at he2
        simp only [serStrLit, List.cons_append, List.append_assoc] at he2
        injection he2 with h3 h4
        exact absurd h3 (by decide)
  | cons p fs2 =>
    obtain ⟨k1, v1⟩ := p
    have h1 : (jvNF v1 && jvNFF fs2) = true := hfs
    simp only [Bool.and_eq_true] at h1
    cases gs with
    | nil =>
      exfalso
      have he2 : joinComma (serFields ((k1, v1) :: fs2)) ++ rbrace :: s =
          (rbrace :: t : List Char) := he
      rw [serFields_cons_NF k1 v1 fs2 h1.1] at he2
      rcases joinComma_cases (serStrLit k1 ++ ':' :: serElem v1) (serFields fs2) with
        ⟨-, hjc⟩ | ⟨q, qs, -, hjc⟩ <;>
      · rw [hjc] at he2
        simp only [serStrLit, List.cons_append, List.append_assoc] at he2
        injection he2 with h3 h4
        exact absurd h3 (by decide)
    | cons q gs2 =>
      obtain ⟨k2, v2⟩ := q
      have h2 : (jvNF v2 && jvNFF gs2) = true := hgs
      simp only [Bool.and_eq_true] at h2
      rw [serFields_cons_NF k1 v1 fs2 h1.1, serFields_cons_NF k2 v2 gs2 h2.1] at he
      rcases joinComma_cases (serStrLit k1 ++ ':' :: serElem v1) (serFields fs2) with
        ⟨hnil1, hjc1⟩ | ⟨q1, qs1, hqs1, hjc1⟩
      · rcases joinComma_cases (serStrLit k2 ++ ':' :: serElem v2) (serFields gs2) with
          ⟨hnil2, hjc2⟩ | ⟨q2, qs2, hqs2, hjc2⟩
        · rw [hjc1, hjc2] at he
          simp only [serStrLit, List.cons_append, List.append_assoc, List.singleton_append] at he
          injection he with h3 h4
          obtain ⟨hk, hrest⟩ := escStr_unamb k1.data k2.data _ _ h4
          injection hrest with h5 h6
          obtain ⟨hv12, hst⟩ := serUnambV v1 v2 h1.1 h2.1 (rbrace :: s) (rbrace :: t)
            (head_cons_nondigit rbrace (by decide) s)
            (head_cons_nondigit rbrace (by decide) t) h6
          injection hst with h7 h8
          have hk12 : k1 = k2 := by
            have h9 := congrArg String.mk hk
            rwa [stringMk_data, stringMk_data] at h9
          have hfs2 : fs2 = [] := serFields_nil_NF fs2 h1.2 hnil1
          have hgs2 : gs2 = [] := serFields_nil_NF gs2 h2.2 hnil2
          exact ⟨by rw [hk12, hv12, hfs2, hgs2], h8⟩
        · exfalso
          rw [hjc1, hjc2] at he
          simp only [serStrLit, List.cons_append, List.append_assoc, List.singleton_append] at he
          injection he with h3 h4
          obtain ⟨hk, hrest⟩ := escStr_unamb k1.data k2.data _ _ h4
          injection hrest with h5 h6
          obtain ⟨hv12, hst⟩ := serUnambV v1 v2 h1.1 h2.1 (rbrace :: s)
            (',' :: (joinComma (q2 :: qs2) ++ rbrace :: t))
            (head_cons_nondigit rbrace (by decide) s)
            (head_cons_nondigit ',' (by decide) (joinComma (q2 :: qs2) ++ rbrace :: t)) h6
          injection hst with h7 h8
          exact absurd h7 (by decide)
      · rcases joinComma_cases (serStrLit k2 ++ ':' :: serElem v2) (serFields gs2) with
          ⟨hnil2, hjc2⟩ | ⟨q2, qs2, hqs2, hjc2⟩
        · exfalso
          rw [hjc1, hjc2] at he
          simp only [serStrLit, List.cons_append, List.append_assoc, List.singleton_append] at he
          injection he with h3 h4
          obtain ⟨hk, hrest⟩ := escStr_unamb k1.data k2.data _ _ h4
          injection hrest with h5 h6
          obtain ⟨hv12, hst⟩ := serUnambV v1 v2 h1.1 h2.1
            (',' :: (joinComma (q1 :: qs1) ++ rbrace :: s)) (rbrace :: t)
            (head_cons_nondigit ',' (by decide) (joinComma (q1 :: qs1) ++ rbrace :: s))
            (head_cons_nondigit rbrace (by decide) t) h6
          injection hst with h7 h8
          exact absurd h7 (by decide)
        · rw [hjc1, hjc2] at he
          simp only [serStrLit, List.cons_append, List.append_assoc, List.singleton_append] at he
          injection he with h3 h4
          obtain ⟨hk, hrest⟩ := escStr_unamb k1.data k2.data _ _ h4
          injection hrest with h5 h6
          obtain ⟨hv12, hst⟩ := serUnambV v1 v2 h1.1 h2.1
            (',' :: (joinComma (q1 :: qs1) ++ rbrace :: s))
            (',' :: (joinComma (q2 :: qs2) ++ rbrace :: t))
            (head_cons_nondigit ',' (by decide) (joinComma (q1 :: qs1) ++ rbrace :: s))
            (head_cons_nondigit ',' (by decide) (joinComma (q2 :: qs2) ++ rbrace :: t)) h6
          injection hst with h7 h8
          rw [← hqs1, ← hqs2] at h8
          obtain ⟨hfg, hst2⟩ := serUnambF fs2 gs2 h1.2 h2.2 s t h8
          have hk12 : k1 = k2 := by
            have h9 := congrArg String.mk hk
            rwa [stringMk_data, stringMk_data] at h9
          exact ⟨by rw [hk12, hv12, hfg], hst2⟩

end

theorem jvNF_ne_und : ∀ v, jvNF v = true → v ≠ Jv.und := by
  intro v hv hc
  subst hc
  exact absurd hv (by decide)

mutual

theorem jnorm_NF : ∀ v, jvNF v = true → jnorm v = v := by
  intro v hv
  cases v with
  | und => exact absurd hv (by decide)
  | nan => exact absurd hv (by decide)
  | null => rfl
  | bool b => rfl
  | num n => rfl
  | str s => rfl
  | arr xs =>
    show Jv.arr (jnormL xs) = Jv.arr xs
    rw [jnormL_NF xs hv]
  | obj fs =>
    show Jv.obj (jnormF fs) = Jv.obj fs
    rw [jnormF_NF fs hv]

theorem jnormL_NF : ∀ xs, jvNFL xs = true → jnormL xs = xs := by
  intro xs hxs
  cases xs with
  | nil => rfl
  | cons x rest =>
    have h2 : (jvNF x && jvNFL rest) = true := hxs
    simp only [Bool.and_eq_true] at h2
    show jnormElem x :: jnormL rest = x :: rest
    rw [jnormL_NF rest h2.2, jnormElem_eq x (jvNF_ne_und x h2.1), jnorm_NF x h2.1]

theorem jnormF_NF : ∀ fs, jvNFF fs = true → jnormF fs = fs := by
  intro fs hfs
  cases fs with
  | nil => rfl
  | cons p rest =>
    obtain ⟨k, v⟩ := p
    have h2 : (jvNF v && jvNFF rest) = true := hfs
    simp only [Bool.and_eq_true] at h2
    cases v with
    | und => exact absurd h2.1 (by decide)
    | nan => exact absurd h2.1 (by decide)
    | null =>
      show (k, jnorm Jv.null) :: jnormF rest = (k, Jv.null) :: rest
      rw [jnorm_NF Jv.null h2.1, jnormF_NF rest h2.2]
    | bool b =>
      show (k, jnorm (Jv.bool b)) :: jnormF rest = (k, Jv.bool b) :: rest
      rw [jnorm_NF (Jv.bool b) h2.1, jnormF_NF rest h2.2]
    | num n =>
      show (k, jnorm (Jv.num n)) :: jnormF rest = (k, Jv.num n) :: rest
      rw [jnorm_NF (Jv.num n) h2.1, jnormF_NF rest h2.2]
    | str s =>
      show (k, jnorm (Jv.str s)) :: jnormF rest = (k, Jv.str s) :: rest
      rw [jnorm_NF (Jv.str s) h2.1, jnormF_NF rest h2.2]
    | arr xs =>
      show (k, jnorm (Jv.arr xs)) :: jnormF rest = (k, Jv.arr xs) :: rest
      rw [jnorm_NF (Jv.arr xs) h2.1, jnormF_NF rest h2.2]
    | obj gs =>
      show (k, jnorm (Jv.obj gs)) :: jnormF rest = (k, Jv.obj gs) :: rest
      rw [jnorm_NF (Jv.obj gs) h2.1, jnormF_NF rest h2.2]

end

theorem jvNFL_mem : ∀ xs, jvNFL xs = true → ∀ x ∈ xs, jvNF x = true := by
  intro xs
  induction xs with
  | nil => intro _ x hx; simp at hx
  | cons y rest ih =>
    intro h x hx
    have h2 : (jvNF y && jvNFL rest) = true := h
    simp only [Bool.and_eq_true] at h2
    rcases List.mem_cons.mp hx with h3 | h3
    · subst h3; exact h2.1
    · exact ih h2.2 x h3

theorem serElem_inj (v w : Jv) (hv : jvNF v = true) (hw : jvNF w = true)
    (h : serElem v = serElem w) : v = w := by
  have h2 : serElem v ++ ([] : List Char) = serElem w ++ [] := by rw [h]
  exact (serUnambV v w hv hw [] [] (fun c hc => by simp at hc)
    (fun c hc => by simp at hc) h2).1

theorem serKey_beq (x y : Jv) (hx : jvNF x = true) (hy : jvNF y = true) :
    (((serJ y).getD []) == ((serJ x).getD [])) = jvBeq y x := by
  rw [serJ_of_NF x hx, serJ_of_NF y hy]
  simp only [Option.getD_some]
  by_cases h : y = x
  · subst h
    rw [jvBeq_refl]
    exact beq_self_eq_true _
  · have h1 : serElem y ≠ serElem x := fun hc => h (serElem_inj y x hy hx hc)
    have h2 : jvBeq y x = false := by
      rw [← Bool.not_eq_true, jvBeq_iff]
      exact h
    rw [h2]
    exact beq_eq_false_iff_ne.mpr h1

theorem dfoF_stable : ∀ f1 (l : List Jv) (f2 : Nat), l.length < f1 → l.length < f2 →
    distinctFirstOccF f1 l = distinctFirstOccF f2 l := by
  intro f1
  induction f1 with
  | zero => intro l f2 h1 h2; exact absurd h1 (Nat.not_lt_zero _)
  | succ f ih =>
    intro l f2 h1 h2
    cases l with
    | nil =>
      cases f2 with
      | zero => exact absurd h2 (Nat.not_lt_zero _)
      | succ g => rfl
    | cons x rest =>
      cases f2 with
      | zero => exact absurd h2 (Nat.not_lt_zero _)
      | succ g =>
        show x :: distinctFirstOccF f (rest.filter fun y => !(jvBeq y x)) =
            x :: distinctFirstOccF g (rest.filter fun y => !(jvBeq y x))
        have hlf : (rest.filter fun y => !(jvBeq y x)).length ≤ rest.length :=
          List.length_filter_le _ _
        simp only [List.length_cons] at h1 h2
        rw [ih (rest.filter fun y => !(jvBeq y x)) g (by omega) (by omega)]

theorem dfo_cons (x : Jv) (l : List Jv) :
    distinctFirstOcc (x :: l) = x :: distinctFirstOcc (l.filter fun y => !(jvBeq y x)) := by
  show x :: distinctFirstOccF (l.length + 1) (l.filter fun y => !(jvBeq y x)) = _
  have hlf : (l.filter fun y => !(jvBeq y x)).length ≤ l.length := List.length_filter_le _ _
  rw [dfoF_stable (l.length + 1) (l.filter fun y => !(jvBeq y x))
    ((l.filter fun y => !(jvBeq y x)).length + 1) (by omega) (by omega)]
  rfl

theorem uniqueGo_NF : ∀ (xs : List Jv), jvNFL xs = true → ∀ seen : List (List Char),
    uniqueGo xs seen =
      distinctFirstOcc (xs.filter fun y => !(seen.contains ((serJ y).getD []))) := by
  intro xs
  induction xs with
  | nil => intro _ seen; rfl
  | cons x rest ih =>
    intro h seen
    have h2 : (jvNF x && jvNFL rest) = true := h
    simp only [Bool.and_eq_true] at h2
    by_cases hmem : seen.contains ((serJ x).getD []) = true
    · have hgo : uniqueGo (x :: rest) seen = uniqueGo rest seen := by
        show (if seen.contains ((serJ x).getD []) then uniqueGo rest seen
          else jnorm x :: uniqueGo rest (((serJ x).getD []) :: seen)) = _
        exact if_pos hmem
      have hflt : (x :: rest).filter (fun y => !(seen.contains ((serJ y).getD []))) =
          rest.filter (fun y => !(seen.contains ((serJ y).getD []))) := by
        have hPx : (!(seen.contains ((serJ x).getD []))) = false := by rw [hmem]; rfl
        simp [List.filter_cons, hPx]
        exact List.elem_iff.mp hmem
      rw [hgo, ih h2.2 seen, hflt]
    · have hmemf : seen.contains ((serJ x).getD []) = false := by
        rw [← Bool.not_eq_true]
        exact hmem
      have hgo : uniqueGo (x :: rest) seen =
          jnorm x :: uniqueGo rest (((serJ x).getD []) :: seen) := by
        show (if seen.contains ((serJ x).getD []) then uniqueGo rest seen
          else jnorm x :: uniqueGo rest (((serJ x).getD []) :: seen)) = _
        exact if_neg hmem
      have hflt : (x :: rest).filter (fun y => !(seen.contains ((serJ y).getD []))) =
          x :: rest.filter (fun y => !(seen.contains ((serJ y).getD []))) := by
        have hPx : (!(seen.contains ((serJ x).getD []))) = true := by rw [hmemf]; rfl
        simp [List.filter_cons, hPx]
        intro hc
        exact hmem (List.elem_iff.mpr hc)
      rw [hgo, jnorm_NF x h2.1, ih h2.2 (((serJ x).getD []) :: seen), hflt, dfo_cons]
      have hfil : rest.filter (fun y => !(List.contains (((serJ x).getD []) :: seen) ((serJ y).getD []))) =
          (rest.filter (fun y => !(seen.contains ((serJ y).getD [])))).filter
            (fun y => !(jvBeq y x)) := by
        rw [List.filter_filter]
        apply List.filter_congr
        intro y hy
        have hyNF : jvNF y = true := jvNFL_mem rest h2.2 y hy
        rw [List.contains_cons, Bool.not_or, serKey_beq x y h2.1 hyNF]
      rw [hfil]

theorem jvNFL_no_und (xs : List Jv) (h : jvNFL xs = true) :
    xs.any (fun x => jvBeq x Jv.und) = false := by
  rw [List.any_eq_false]
  intro x hx hc
  have h1 := jvNFL_mem xs h x hx
  rw [jvBeq_eq x Jv.und hc] at h1
  exact absurd h1 (by decide)

/-- Claim C10. Over the specification's Value model (pure-JSON values: no
`undefined`, no `NaN` — exactly what `JSON.parse` can produce), the jq
`unique` stage returns the distinct elements of the input array in order of
each element's first occurrence, as described by the specification-side
`distinctFirstOcc`; and it does not sort: on `[2, 1, 2]` it returns
`[2, 1]`, not the sorted `[1, 2]`. -/
theorem unique_first_occurrence (xs : List Jv) (h : jvNFL xs = true) :
    uniqueJq xs = .ok (distinctFirstOcc xs) ∧
    (uniqueJq [Jv.num 2, Jv.num 1, Jv.num 2] = .ok [Jv.num 2, Jv.num 1] ∧
      distinctFirstOcc [Jv.num 2, Jv.num 1, Jv.num 2] ≠ [Jv.num 1, Jv.num 2]) := by
  refine ⟨?_, rfl, ?_⟩
  · have hund := jvNFL_no_und xs h
    show (if xs.any (fun x => jvBeq x Jv.und) then
      (Except.error "SyntaxError: undefined is not valid JSON" : Except String (List Jv))
      else .ok (uniqueGo xs [])) = _
    rw [if_neg (by rw [hund]; exact Bool.false_ne_true)]
    rw [uniqueGo_NF xs h []]
    have hfe : xs.filter (fun y => !(List.contains ([] : List (List Char)) ((serJ y).getD []))) = xs :=
      List.filter_eq_self.mpr (fun a _ => rfl)
    rw [hfe]
  · intro hc
    injection hc with h1 h2
    injection h1 with h3
    exact absurd h3 (by decide)

/-- Witness for C10 at `[true, null, true]`: the Value-model hypothesis
holds by computation and the stage keeps `[true, null]` in first-occurrence
order. -/
theorem unique_first_occurrence_witness :
    jvNFL [Jv.bool true, Jv.null, Jv.bool true] = true ∧
    uniqueJq [Jv.bool true, Jv.null, Jv.bool true] =
      .ok (distinctFirstOcc [Jv.bool true, Jv.null, Jv.bool true]) ∧
    distinctFirstOcc [Jv.bool true, Jv.null, Jv.bool true] = [Jv.bool true, Jv.null] :=
  ⟨rfl, (unique_first_occurrence [Jv.bool true, Jv.null, Jv.bool true] rfl).1, rfl⟩
